import Mathlib

/-!
# The `matter` text-templating engine of `99b.cpp`

A shallow embedding of the blueprint / filler / buffer core of `src/99b.cpp`,
followed by theorems about it.

Conventions of the embedding.

* A byte (`char`) is a natural number; ASCII literals are written as their codes
  (`32` is the space, `48` is `'0'`, `45` is `'-'`, `0` is the terminator).
* `size_t` is 64 bits wide; where the source computes in `size_t` and a wrap-around
  is possible the arithmetic is written with an explicit `% 2 ^ 64`.
* A pointer `char *chars` is modelled by the list of the bytes from `chars` to the
  end of the object it points into.  Writing through the pointer returns the new
  contents of that view; `chars + k` is the view with its first `k` bytes dropped.
* An operation whose behaviour is undefined in C++ (a write or read past the end
  of an object) or that is rejected by a `static_assert` returns `none`.
-/

namespace matter

/-! ## `naive_digits10` -/

/-- The value of `std::numeric_limits<size_t>::max()`. -/
def SIZE_MAX : Nat := 2 ^ 64 - 1

/-- The value of `std::numeric_limits<size_t>::digits10`. -/
def SIZE_DIGITS10 : Nat := 19

/-- The loop `while (p <= n) { p *= 10; log += 1; }` of `naive_digits10`, on `size_t`
values, run for at most `fuel` tests of the loop condition. -/
def naive_digits10_loop : Nat → Nat → Nat → Nat → Option Nat
  | 0, _, _, _ => none
  | fuel + 1, n, log, p =>
    if p ≤ n then naive_digits10_loop fuel n ((log + 1) % 2 ^ 64) (p * 10 % 2 ^ 64)
    else some log

/-- The function `naive_digits10(size_t n)`; the loop gets 64 rounds of fuel. -/
def naive_digits10 (n : Nat) : Option Nat :=
  if n ≥ SIZE_MAX / 10 then some (SIZE_DIGITS10 + 1)
  else naive_digits10_loop 64 n 1 10

/-! ## Memory primitives of the standard library -/

/-- The call `std::copy_n(src, n, dst)`: the first `n` bytes of `src` replace the first
`n` bytes of the view `dst`. Both ranges must exist. -/
def copy_n (src : List Nat) (n : Nat) (dst : List Nat) : Option (List Nat) :=
  if n ≤ src.length ∧ n ≤ dst.length then some (src.take n ++ dst.drop n) else none

/-- The call `std::fill_n(dst, n, v)`. -/
def fill_n (dst : List Nat) (n : Nat) (v : Nat) : Option (List Nat) :=
  if n ≤ dst.length then some (List.replicate n v ++ dst.drop n) else none

/-- The decimal representation `std::to_chars` produces for an integer: the digits of
the magnitude, most significant first, after a `'-'` when the value is negative. -/
def decimal (value : Int) : List Nat :=
  if value < 0 then 45 :: (Nat.toDigits 10 value.natAbs).map Char.toNat
  else (Nat.toDigits 10 value.toNat).map Char.toNat

/-- The call `std::to_chars(dst, dst + cap, value)`. When the representation does not fit
in `cap` bytes the standard leaves the range unspecified: no result is given. -/
def to_chars (dst : List Nat) (cap : Nat) (value : Int) : Option (List Nat) :=
  if cap ≤ dst.length ∧ (decimal value).length ≤ cap then
    some (decimal value ++ dst.drop (decimal value).length)
  else none

/-- The pointer `chars + KOffset` handed to `g`: `g` sees the view without its first
`KOffset` bytes, which stay as they are. -/
def atOffset (KOffset : Nat) (g : List Nat → Option (List Nat)) (chars : List Nat) :
    Option (List Nat) :=
  if KOffset ≤ chars.length then
    (g (chars.drop KOffset)).map (fun r => chars.take KOffset ++ r)
  else none

/-! ## `StringLiteral` -/

/-- The class template `StringLiteral<N>`: the array `char _data[N]`. The template
argument `N` is the length of the list; C++ has no array of size zero, so `N ≥ 1` for
every literal that exists. -/
structure StringLiteral where
  _data : List Nat
deriving DecidableEq, Repr

namespace StringLiteral

/-- The member `size()`. -/
def size (s : StringLiteral) : Nat := s._data.length

/-- The member `data()`. -/
def data (s : StringLiteral) : List Nat := s._data

/-- The member `operator+`: `copy_n(_data, N - 1, buf)` followed by
`copy_n(other._data, M, it)` at the iterator the first copy returns. -/
def plus (s other : StringLiteral) : StringLiteral :=
  ⟨s._data.take (s.size - 1) ++ other._data.take other.size⟩

/-- The conversion of a `char` to `size_t` in `hash * 1097 + c`, with `char` signed. -/
def charToSize (c : Nat) : Nat := if c < 128 then c else 2 ^ 64 - 256 + c

/-- The member `hash()`. -/
def hash (s : StringLiteral) : Nat :=
  s._data.foldl (fun hash c => (hash * 1097 + charToSize c) % 2 ^ 64) 0

end StringLiteral

/-- The function template `placeholder<N>()`. -/
def placeholder (N : Nat) : StringLiteral :=
  ⟨(List.replicate N 32 ++ (List.replicate (N + 1) 0).drop N).set N 0⟩

/-- The function template `unsigned_literal<N>()`. -/
def unsigned_literal (N : Nat) : Option StringLiteral := do
  let digits ← naive_digits10 N
  let buf ← to_chars (List.replicate (digits + 1) 0) digits (N : Int)
  some ⟨buf.set digits 0⟩

/-- The conversion of an `ssize_t` to `size_t`, as in the call `naive_digits10(N)` of
`signed_literal`. -/
def ssizeToSize (N : Int) : Nat := (N % 2 ^ 64).toNat

/-- The function template `signed_literal<N>()`. -/
def signed_literal (N : Int) : Option StringLiteral := do
  let digits ← naive_digits10 (ssizeToSize N)
  let buf ← to_chars ((List.replicate (digits + 2) 0).set digits 32) (digits + 1) N
  some ⟨buf.set (digits + 1) 0⟩

/-! ## Integer types -/

/-- The fixed-width integer types `std::integral T` ranges over. -/
inductive IntType
  | int8 | uint8 | int16 | uint16 | int32 | uint32 | int64 | uint64
deriving DecidableEq, Repr

namespace IntType

/-- The width of the type in bits. -/
def bits : IntType → Nat
  | int8 | uint8 => 8
  | int16 | uint16 => 16
  | int32 | uint32 => 32
  | int64 | uint64 => 64

/-- The trait `std::is_signed_v<T>`. -/
def is_signed : IntType → Bool
  | int8 | int16 | int32 | int64 => true
  | uint8 | uint16 | uint32 | uint64 => false

/-- The value of `std::numeric_limits<T>::max()`. -/
def max (T : IntType) : Nat :=
  if T.is_signed then 2 ^ (T.bits - 1) - 1 else 2 ^ T.bits - 1

/-- The value of `std::numeric_limits<T>::min()`. -/
def min (T : IntType) : Int :=
  if T.is_signed then -(2 ^ (T.bits - 1) : Int) else 0

/-- The values of the type. -/
def holds (T : IntType) (x : Int) : Prop := T.min ≤ x ∧ x ≤ (T.max : Int)

instance (T : IntType) (x : Int) : Decidable (T.holds x) := by
  unfold holds; infer_instance

end IntType

/-- The function template `integer_placeholder_length<T>()`. -/
def integer_placeholder_length (T : IntType) : Option Nat := do
  let d ← naive_digits10 T.max
  some (d + (if T.is_signed then 1 else 0))

/-- The number of decimal digits of a natural number. -/
def digitCount (n : Nat) : Nat := (Nat.toDigits 10 n).length

/-! ## Fillers -/

/-- The filler types: `std::nullptr_t`, the three lambdas of `forms::v`, and the
class templates `OffsetFiller` and `ConcatFiller`. A lambda is given by what it
captures and the constants of its body. -/
inductive Filler
  | null
  | bool (value : Bool)
  | int (length : Nat) (value : Int)
  | text (KLength : Nat) (value : List Nat)
  | offset (KOffset : Nat) (filler : Filler)
  | concat (KOffset : Nat) (first second : Filler)
deriving DecidableEq, Repr

namespace Filler

/-- The test `std::is_same_v<std::nullptr_t, TFiller>`. -/
def isNull : Filler → Bool
  | null => true
  | _ => false

/-- The call `std::move(filler)(chars)`: the new contents of the view `chars`.
A `nullptr` cannot be called; every call in the source is guarded by `if constexpr`. -/
def run : Filler → List Nat → Option (List Nat)
  | null, _ => none
  | bool value, chars =>
    copy_n (if value then [32, 116, 114, 117, 101, 0] else [102, 97, 108, 115, 101, 0]) 5 chars
  | int length value, chars => do
    let filled ← fill_n chars length 32
    to_chars filled length value
  | text KLength value, chars => do
    let filled ← fill_n chars KLength 32
    copy_n value KLength filled
  | offset KOffset filler, chars =>
    if filler.isNull then some chars else atOffset KOffset filler.run chars
  | concat KOffset first second, chars => do
    let chars1 ← if first.isNull then some chars else first.run chars
    if second.isNull then some chars1 else atOffset KOffset second.run chars1

end Filler

/-! ## Buffers -/

/-- The constructor of `BlankBuffer<KBlank>` over the caller's array `a` (the Transient
buffer): the new contents of `a`. -/
def BlankBuffer (KBlank : StringLiteral) (a : List Nat) : Option (List Nat) :=
  if a.length ≥ KBlank.size then copy_n KBlank.data KBlank.size a else none

/-- The constructor of `ConstInitBlankBuffer<KBlank>` (the Static-once buffer); `raw` is
what the array of `KBlank.size()` bytes holds before the copy. -/
def ConstInitBlankBuffer (KBlank : StringLiteral) (raw : List Nat) : Option (List Nat) :=
  if raw.length = KBlank.size then copy_n KBlank.data KBlank.size raw else none

/-- The class template `SentinelBuffer<KSize>` (the Persistent-fingerprinted buffer);
`KSize` is the length of `_data`. -/
structure SentinelBuffer where
  sentinel : Nat
  _data : List Nat
deriving DecidableEq, Repr

namespace SentinelBuffer

/-- A freshly constructed buffer: `sentinel = 0`, the array holds whatever `raw` is. -/
def fresh (raw : List Nat) : SentinelBuffer := ⟨0, raw⟩

/-- The member `data<KBlank>()`: the state of the buffer after the call (the pointer it
returns is the whole `_data`). -/
def data (KBlank : StringLiteral) (buf : SentinelBuffer) : Option SentinelBuffer :=
  if KBlank.size ≤ buf._data.length then
    if buf.sentinel ≠ KBlank.hash then
      (copy_n KBlank.data KBlank.size buf._data).map (fun d => { buf with _data := d })
    else some buf
  else none

end SentinelBuffer

/-! ## Forms -/

/-- The class template `Form<KBlank, TFiller>`. -/
structure Form where
  KBlank : StringLiteral
  filler : Filler
deriving DecidableEq, Repr

namespace Form

/-- The member `length()`. -/
def length (f : Form) : Nat := f.KBlank.size - 1

/-- The member `with_filler`. -/
def with_filler (f : Form) (other_filler : Filler) : Form := ⟨f.KBlank, other_filler⟩

/-- The member `write_to(ConstInitBuffer &)`. -/
def write_to_ConstInitBuffer (f : Form) (buf : List Nat) : Option (List Nat) :=
  if f.filler.isNull then some buf else f.filler.run buf

/-- The member `write_to(Buffer)`. -/
def write_to_Buffer (f : Form) (buf : List Nat) : Option (List Nat) :=
  if f.filler.isNull then some buf else f.filler.run buf

/-- The member `write_to(SentinelBuffer<KSize> &)`. -/
def write_to_SentinelBuffer (f : Form) (buf : SentinelBuffer) : Option SentinelBuffer :=
  if f.filler.isNull then some buf
  else do
    let b ← buf.data f.KBlank
    let d ← f.filler.run b._data
    some { b with _data := d }

/-- The overload `operator+(Form<L, TL> &&, Form<R, TR> &&)`. -/
def plus (left right : Form) : Form :=
  ⟨left.KBlank.plus right.KBlank, .concat (left.KBlank.size - 1) left.filler right.filler⟩

/-- The overload `operator+(Form<L, TL> &&, const Form<R, nullptr_t> &)`. -/
def plus_nullRight (left right : Form) : Form :=
  ⟨left.KBlank.plus right.KBlank, left.filler⟩

/-- The overload `operator+(const Form<L, nullptr_t> &, Form<R, TR> &&)`. -/
def plus_nullLeft (left right : Form) : Form :=
  ⟨left.KBlank.plus right.KBlank, .offset (left.KBlank.size - 1) right.filler⟩

/-- The overload `operator+(const Form<L, nullptr_t> &, const Form<R, nullptr_t> &)`. -/
def plus_nullNull (left right : Form) : Form :=
  ⟨left.KBlank.plus right.KBlank, .null⟩

end Form

/-- Whether an operand of `operator+` is an rvalue (the result of `v(...)` or of another
`operator+`) or a constant lvalue (one of the variables `k<...>`, `ku<...>`,
`ki<...>`). -/
inductive ValueCategory
  | lvalue | rvalue
deriving DecidableEq, Repr

/-- Overload resolution for `left + right`. A parameter `Form<...> &&` binds rvalues only,
and binds them better than `const Form<..., nullptr_t> &` does; the latter takes either
category but only the no-op filler. `none` when no overload is viable. -/
def operatorPlus (lc : ValueCategory) (left : Form) (rc : ValueCategory) (right : Form) :
    Option Form :=
  match lc, rc with
  | .rvalue, .rvalue => some (left.plus right)
  | .rvalue, .lvalue =>
    if right.filler.isNull then some (left.plus_nullRight right) else none
  | .lvalue, .rvalue =>
    if left.filler.isNull then some (left.plus_nullLeft right) else none
  | .lvalue, .lvalue =>
    if left.filler.isNull ∧ right.filler.isNull then some (left.plus_nullNull right) else none

namespace forms

/-- The variable template `k<KLiteral>`. -/
def k (KLiteral : StringLiteral) : Form := ⟨KLiteral, .null⟩

/-- The variable template `ku<KValue>`. -/
def ku (KValue : Nat) : Option Form := do
  let lit ← unsigned_literal KValue
  some ⟨lit, .null⟩

/-- The variable template `ki<KValue>`. -/
def ki (KValue : Int) : Option Form := do
  let lit ← signed_literal KValue
  some ⟨lit, .null⟩

/-- The overload `v(bool value)`. -/
def v_bool (value : Bool) : Form := (k (placeholder 5)).with_filler (.bool value)

/-- The overload `v(T value)` for an integral `T`. -/
def v_int (T : IntType) (value : Int) : Option Form := do
  let length ← integer_placeholder_length T
  some ((k (placeholder length)).with_filler (.int length value))

/-- The overload `v<KLength>(TCharIter value)`; `value` is the sequence the iterator
yields. -/
def v_text (KLength : Nat) (value : List Nat) : Form :=
  (k (placeholder KLength)).with_filler (.text KLength value)

end forms

/-! ## Expressions that build forms -/

/-- The expressions a host writes with the literals, the value adapters and `+`. -/
inductive FormExpr
  | k (KLiteral : StringLiteral)
  | ku (KValue : Nat)
  | ki (KValue : Int)
  | v_bool (value : Bool)
  | v_int (T : IntType) (value : Int)
  | v_text (KLength : Nat) (value : List Nat)
  | plus (left right : FormExpr)
deriving DecidableEq, Repr

namespace FormExpr

/-- The value category of an expression. -/
def category : FormExpr → ValueCategory
  | k _ | ku _ | ki _ => .lvalue
  | _ => .rvalue

/-- The form an expression evaluates to. -/
def form : FormExpr → Option Form
  | k KLiteral => some (forms.k KLiteral)
  | ku KValue => forms.ku KValue
  | ki KValue => forms.ki KValue
  | v_bool value => some (forms.v_bool value)
  | v_int T value => forms.v_int T value
  | v_text KLength value => some (forms.v_text KLength value)
  | plus left right => do
    let l ← left.form
    let r ← right.form
    operatorPlus left.category l right.category r

/-- The operands are what C++ lets them be: a literal is an array of at least one byte, a
constant is a `size_t` or an `ssize_t`, an integer is a value of its type, a character
source yields at least the bytes that are read from it. -/
def valid : FormExpr → Prop
  | k KLiteral => 0 < KLiteral.size
  | ku KValue => KValue < 2 ^ 64
  | ki KValue => -(2 ^ 63 : Int) ≤ KValue ∧ KValue < 2 ^ 63
  | v_bool _ => True
  | v_int T value => T.holds value
  | v_text KLength value => KLength ≤ value.length
  | plus left right => left.valid ∧ right.valid

instance decidableValid : (e : FormExpr) → Decidable e.valid
  | k _ => by unfold valid; infer_instance
  | ku _ => by unfold valid; infer_instance
  | ki _ => by unfold valid; infer_instance
  | v_bool _ => by unfold valid; infer_instance
  | v_int _ _ => by unfold valid; infer_instance
  | v_text _ _ => by unfold valid; infer_instance
  | plus l r =>
    have := decidableValid l
    have := decidableValid r
    by unfold valid; infer_instance

/-- The value of `length()` of the form of an expression. -/
def length (e : FormExpr) : Nat :=
  match e.form with
  | some f => f.length
  | none => 0

/-- Whether index `i` of the rendered text lies in a blank region: the bytes of the
placeholder of one of the value adapters, at the offset composition gives it. -/
def blank : FormExpr → Nat → Bool
  | k _, _ => false
  | ku _, _ => false
  | ki _, _ => false
  | v_bool _, i => decide (i < 5)
  | v_int T value, i => decide (i < (v_int T value).length)
  | v_text KLength _, i => decide (i < KLength)
  | plus left right, i =>
    left.blank i || (decide (left.length ≤ i) && right.blank (i - left.length))

/-- Two expressions that differ in their dynamic values only. -/
def sameShape : FormExpr → FormExpr → Bool
  | k a, k b => decide (a = b)
  | ku a, ku b => decide (a = b)
  | ki a, ki b => decide (a = b)
  | v_bool _, v_bool _ => true
  | v_int T _, v_int U _ => decide (T = U)
  | v_text n _, v_text m _ => decide (n = m)
  | plus a b, plus c d => sameShape a c && sameShape b d
  | _, _ => false

end FormExpr

/-- A render through a Transient buffer over the array `a`: construction of the buffer,
then `write_to`. -/
def renderTransient (f : Form) (a : List Nat) : Option (List Nat) := do
  let buf ← BlankBuffer f.KBlank a
  f.write_to_Buffer buf

/-- A render through a Static-once buffer. -/
def renderStatic (f : Form) (raw : List Nat) : Option (List Nat) := do
  let buf ← ConstInitBlankBuffer f.KBlank raw
  f.write_to_ConstInitBuffer buf

/-! ## Auxiliary definitions for the proofs -/

/-- The guarded call that the source writes as
`if constexpr (!std::is_same_v<std::nullptr_t, TFiller>) std::move(filler)(chars)`. -/
def Filler.invoke (f : Filler) (chars : List Nat) : Option (List Nat) :=
  if f.isNull then some chars else f.run chars

/-- What the filler of an expression makes of the `length()` bytes `pre` it is run on:
each value adapter replaces its blank by its value, padded, everything else stays. -/
def FormExpr.fill : FormExpr → List Nat → List Nat
  | .k _, pre => pre
  | .ku _, pre => pre
  | .ki _, pre => pre
  | .v_bool value, _ => if value then [32, 116, 114, 117, 101] else [102, 97, 108, 115, 101]
  | .v_int T value, _ =>
    decimal value
      ++ List.replicate ((FormExpr.v_int T value).length - (decimal value).length) 32
  | .v_text KLength value, _ => value.take KLength
  | .plus left right, pre =>
    left.fill (pre.take left.length) ++ right.fill (pre.drop left.length)

/-- The contents the filler of `f` is run on by `write_to(SentinelBuffer &)`: the array
as it is when `data<KBlank>()` is not called or finds the fingerprint, and the array
with the static text copied to its start otherwise. -/
def sentinelBase (f : Form) (s : SentinelBuffer) : List Nat :=
  if f.filler.isNull = true ∨ s.sentinel = f.KBlank.hash then s._data
  else f.KBlank.data ++ s._data.drop f.KBlank.size

/-- The unreduced products `p * 10` that the loop of `naive_digits10` computes, in the
order it computes them; the loop itself goes on with `p * 10 % 2 ^ 64`. -/
def naive_digits10_loop_products : Nat → Nat → Nat → List Nat
  | 0, _, _ => []
  | fuel + 1, n, p =>
    if p ≤ n then (p * 10) :: naive_digits10_loop_products fuel n (p * 10 % 2 ^ 64) else []

/-- The unreduced products `p * 10` of a call `naive_digits10(n)`. -/
def naive_digits10_products (n : Nat) : List Nat :=
  if n ≥ SIZE_MAX / 10 then [] else naive_digits10_loop_products 64 n 10

/-- An expression without dynamic content: literals and numerals only. -/
def FormExpr.pureLiteral : FormExpr → Bool
  | .k _ | .ku _ | .ki _ => true
  | .v_bool _ | .v_int _ _ | .v_text _ _ => false
  | .plus left right => left.pureLiteral && right.pureLiteral

/-- The sum, over the leaves of an expression, of the length of the literal (its size
without the terminator) or of the width of the blank. -/
def FormExpr.leafSum : FormExpr → Nat
  | .k KLiteral => KLiteral.size - 1
  | .ku KValue =>
    match unsigned_literal KValue with
    | some lit => lit.size - 1
    | none => 0
  | .ki KValue =>
    match signed_literal KValue with
    | some lit => lit.size - 1
    | none => 0
  | .v_bool _ => 5
  | .v_int T _ =>
    match integer_placeholder_length T with
    | some W => W
    | none => 0
  | .v_text KLength _ => KLength
  | .plus left right => left.leafSum + right.leafSum

/-- The dispatcher in the words of the specification (section 4.2): it invokes the left
filler against the buffer start, then the right filler against the buffer start
shifted by the content length of the left side; a no-op filler is the identity. -/
def specDispatcher (left right : Form) (chars : List Nat) : Option (List Nat) := do
  let afterLeft ← if left.filler.isNull then some chars else left.filler.run chars
  if right.filler.isNull then some afterLeft
  else atOffset left.length right.filler.run afterLeft

/-- The literal `""`, the default `KBlank` of `Form` and of `SentinelBuffer::data`. -/
def emptyLiteral : StringLiteral := ⟨[0]⟩

/-- The states of a Persistent-fingerprinted buffer a host can reach: a fresh buffer, and
what `write_to` of any form or `data<KBlank>()` for any blueprint makes of a state
that can be reached. -/
inductive SentinelBuffer.Reachable : SentinelBuffer → Prop
  | fresh (raw : List Nat) : Reachable (SentinelBuffer.fresh raw)
  | render (f : Form) (s s' : SentinelBuffer) :
      Reachable s → f.write_to_SentinelBuffer s = some s' → Reachable s'
  | read (KBlank : StringLiteral) (s s' : SentinelBuffer) :
      Reachable s → s.data KBlank = some s' → Reachable s'

/-! # Lemmas -/

/-! ## Blueprint concatenation -/

theorem StringLiteral.plus_data (s other : StringLiteral) :
    (s.plus other).data = s.data.take (s.size - 1) ++ other.data := by
  simp [StringLiteral.plus, StringLiteral.data, StringLiteral.size]

theorem StringLiteral.plus_size (s other : StringLiteral) :
    (s.plus other).size = s.size - 1 + other.size := by
  simp [StringLiteral.plus, StringLiteral.size]

theorem operatorPlus_KBlank {lc rc : ValueCategory} {l r f : Form}
    (h : operatorPlus lc l rc r = some f) : f.KBlank = l.KBlank.plus r.KBlank := by
  cases lc <;> cases rc <;> simp [operatorPlus] at h
  · obtain ⟨_, rfl⟩ := h; rfl
  · obtain ⟨_, rfl⟩ := h; rfl
  · obtain ⟨_, rfl⟩ := h; rfl
  · subst h; rfl

/-! ## Memory primitives on a view split into a prefix and a rest -/

theorem copy_n_append (src pre suf : List Nat) (n : Nat) (hp : pre.length = n)
    (hs : n ≤ src.length) : copy_n src n (pre ++ suf) = some (src.take n ++ suf) := by
  subst hp
  simp [copy_n, hs]

theorem fill_n_append (pre suf : List Nat) (n v : Nat) (hp : pre.length = n) :
    fill_n (pre ++ suf) n v = some (List.replicate n v ++ suf) := by
  subst hp
  simp [fill_n]

theorem to_chars_append (pre suf : List Nat) (cap : Nat) (value : Int)
    (hp : pre.length = cap) (hfit : (decimal value).length ≤ cap) :
    to_chars (pre ++ suf) cap value
      = some (decimal value ++ pre.drop (decimal value).length ++ suf) := by
  subst hp
  have h : (decimal value).length ≤ pre.length := hfit
  simp [to_chars, h, List.drop_append_of_le_length h]

theorem atOffset_append (K : Nat) (g : List Nat → Option (List Nat)) (pre suf : List Nat)
    (hp : pre.length = K) : atOffset K g (pre ++ suf) = (g suf).map (fun r => pre ++ r) := by
  subst hp
  simp [atOffset]

theorem placeholder_data (N : Nat) : (placeholder N).data = List.replicate N 32 ++ [0] := by
  have h : (List.replicate (N + 1) 0).drop N = [0] := by
    rw [List.drop_replicate]; simp
  simp [placeholder, StringLiteral.data, h, List.set_append_right]

theorem placeholder_size (N : Nat) : (placeholder N).size = N + 1 := by
  have := congrArg List.length (placeholder_data N)
  simpa [StringLiteral.size, StringLiteral.data] using this

/-- The integer filler on a view that starts with its blank. -/
theorem run_int_append (W : Nat) (x : Int) (pre suf : List Nat) (hp : pre.length = W)
    (hfit : (decimal x).length ≤ W) :
    (Filler.int W x).run (pre ++ suf)
      = some (decimal x ++ List.replicate (W - (decimal x).length) 32 ++ suf) := by
  simp only [Filler.run, fill_n_append pre suf W 32 hp, Option.bind_eq_bind, Option.some_bind]
  rw [to_chars_append _ _ _ _ (by simp) hfit]
  simp [List.drop_replicate]

/-- The text filler on a view that starts with its blank. -/
theorem run_text_append (K : Nat) (value pre suf : List Nat) (hp : pre.length = K)
    (hs : K ≤ value.length) :
    (Filler.text K value).run (pre ++ suf) = some (value.take K ++ suf) := by
  simp only [Filler.run, fill_n_append pre suf K 32 hp, Option.bind_eq_bind, Option.some_bind]
  exact copy_n_append _ _ _ _ (by simp) hs

/-- The boolean filler on a view that starts with its blank. -/
theorem run_bool_append (value : Bool) (pre suf : List Nat) (hp : pre.length = 5) :
    (Filler.bool value).run (pre ++ suf)
      = some ((if value then [32, 116, 114, 117, 101] else [102, 97, 108, 115, 101]) ++ suf) := by
  simp only [Filler.run]
  rw [copy_n_append _ _ _ _ hp (by split <;> simp)]
  cases value <;> rfl

/-! ## Integer blanks -/

theorem decimal_length_le (x : Int) (d : Nat) (hd : 0 < d) (h : x.natAbs < 10 ^ d) :
    (decimal x).length ≤ d + (if x < 0 then 1 else 0) := by
  have key : ∀ n : Nat, n < 10 ^ d → (Nat.toDigits 10 n).length ≤ d := fun n hn =>
    Nat.toDigitsCore_length 10 (by decide) (n + 1) n d hn hd
  unfold decimal
  split
  · simp only [List.length_cons, List.length_map]
    have := key _ h
    omega
  · simp only [List.length_map]
    have hx : x.toNat = x.natAbs := by omega
    rw [hx]
    have := key _ h
    omega

/-- The representation of every value of `T` fits the width of the blank of `T`. -/
theorem decimal_fits (T : IntType) (x : Int) (hx : T.holds x) :
    ∃ W, integer_placeholder_length T = some W ∧ (decimal x).length ≤ W := by
  obtain ⟨hlo, hhi⟩ := hx
  cases T
  case int8 =>
    refine ⟨4, by decide, ?_⟩
    have hmin : IntType.int8.min = -128 := by decide
    have hmax : IntType.int8.max = 127 := by decide
    rw [hmin] at hlo; rw [hmax] at hhi
    have := decimal_length_le x 3 (by decide) (by omega)
    split at this <;> omega
  case uint8 =>
    refine ⟨3, by decide, ?_⟩
    have hmin : IntType.uint8.min = 0 := by decide
    have hmax : IntType.uint8.max = 255 := by decide
    rw [hmin] at hlo; rw [hmax] at hhi
    have := decimal_length_le x 3 (by decide) (by omega)
    split at this <;> omega
  case int16 =>
    refine ⟨6, by decide, ?_⟩
    have hmin : IntType.int16.min = -32768 := by decide
    have hmax : IntType.int16.max = 32767 := by decide
    rw [hmin] at hlo; rw [hmax] at hhi
    have := decimal_length_le x 5 (by decide) (by omega)
    split at this <;> omega
  case uint16 =>
    refine ⟨5, by decide, ?_⟩
    have hmin : IntType.uint16.min = 0 := by decide
    have hmax : IntType.uint16.max = 65535 := by decide
    rw [hmin] at hlo; rw [hmax] at hhi
    have := decimal_length_le x 5 (by decide) (by omega)
    split at this <;> omega
  case int32 =>
    refine ⟨11, by decide, ?_⟩
    have hmin : IntType.int32.min = -2147483648 := by decide
    have hmax : IntType.int32.max = 2147483647 := by decide
    rw [hmin] at hlo; rw [hmax] at hhi
    have := decimal_length_le x 10 (by decide) (by omega)
    split at this <;> omega
  case uint32 =>
    refine ⟨10, by decide, ?_⟩
    have hmin : IntType.uint32.min = 0 := by decide
    have hmax : IntType.uint32.max = 4294967295 := by decide
    rw [hmin] at hlo; rw [hmax] at hhi
    have := decimal_length_le x 10 (by decide) (by omega)
    split at this <;> omega
  case int64 =>
    refine ⟨21, by decide, ?_⟩
    have hmin : IntType.int64.min = -9223372036854775808 := by decide
    have hmax : IntType.int64.max = 9223372036854775807 := by decide
    rw [hmin] at hlo; rw [hmax] at hhi
    have := decimal_length_le x 19 (by decide) (by omega)
    split at this <;> omega
  case uint64 =>
    refine ⟨20, by decide, ?_⟩
    have hmin : IntType.uint64.min = 0 := by decide
    have hmax : IntType.uint64.max = 18446744073709551615 := by decide
    rw [hmin] at hlo; rw [hmax] at hhi
    have := decimal_length_le x 20 (by decide) (by omega)
    split at this <;> omega

/-! ## `naive_digits10` returns, and bounds its argument -/

theorem naive_digits10_loop_spec (fuel : Nat) :
    ∀ (n log p : Nat), p = 10 ^ log → 1 ≤ log → (log = 1 ∨ 10 ^ (log - 1) ≤ n) →
      n < SIZE_MAX / 10 → 20 ≤ fuel + log →
      ∃ d, naive_digits10_loop fuel n log p = some d ∧ log ≤ d ∧ n < 10 ^ d
        ∧ (d = 1 ∨ 10 ^ (d - 1) ≤ n) := by
  have hmax : SIZE_MAX / 10 = 1844674407370955161 := by decide
  induction fuel with
  | zero =>
    intro n log p _ _ hlow hn hfuel
    exfalso
    rw [hmax] at hn
    rcases hlow with h | h
    · omega
    · have : 10 ^ 19 ≤ 10 ^ (log - 1) := Nat.pow_le_pow_right (by decide) (by omega)
      omega
  | succ fuel ih =>
    intro n log p hp hlog hlow hn hfuel
    rw [hmax] at hn
    unfold naive_digits10_loop
    by_cases hle : p ≤ n
    · have hlt : log < 19 := by
        by_contra hcon
        have : 10 ^ 19 ≤ 10 ^ log := Nat.pow_le_pow_right (by decide) (by omega)
        omega
      have hp10 : p * 10 = 10 ^ (log + 1) := by rw [hp, Nat.pow_succ]
      have hbound : 10 ^ (log + 1) ≤ 10 ^ 19 := Nat.pow_le_pow_right (by decide) (by omega)
      have e1 : (log + 1) % 2 ^ 64 = log + 1 := Nat.mod_eq_of_lt (by omega)
      have e2 : p * 10 % 2 ^ 64 = 10 ^ (log + 1) := by
        rw [hp10]; exact Nat.mod_eq_of_lt (by omega)
      rw [if_pos hle, e1, e2]
      obtain ⟨d, hd, h1, h2, h3⟩ :=
        ih n (log + 1) (10 ^ (log + 1)) rfl (by omega)
          (Or.inr (by simpa [hp] using hle)) (by rw [hmax]; exact hn) (by omega)
      exact ⟨d, hd, by omega, h2, h3⟩
    · rw [if_neg hle]
      exact ⟨log, rfl, le_refl _, by omega, hlow⟩

theorem naive_digits10_spec (n : Nat) (hn : n < 2 ^ 64) :
    ∃ d, naive_digits10 n = some d ∧ 1 ≤ d ∧ n < 10 ^ d := by
  unfold naive_digits10
  by_cases h : n ≥ SIZE_MAX / 10
  · rw [if_pos h]
    exact ⟨20, rfl, by decide, by omega⟩
  · rw [if_neg h]
    obtain ⟨d, hd, h1, h2, _⟩ :=
      naive_digits10_loop_spec 64 n 1 10 rfl (le_refl _) (Or.inl rfl) (by omega) (by decide)
    exact ⟨d, hd, h1, h2⟩

theorem unsigned_literal_spec (N : Nat) (hN : N < 2 ^ 64) :
    ∃ lit, unsigned_literal N = some lit ∧ 0 < lit.size := by
  obtain ⟨d, hd, h1, h2⟩ := naive_digits10_spec N hN
  have hfit : (decimal (N : Int)).length ≤ d := by
    have := decimal_length_le (N : Int) d h1 (by simpa using h2)
    simpa using this
  have hbuf : to_chars (List.replicate (d + 1) 0) d (N : Int)
      = some (decimal (N : Int) ++ (List.replicate d 0).drop (decimal (N : Int)).length ++ [0]) := by
    have := to_chars_append (List.replicate d 0) [0] d (N : Int) (by simp) hfit
    rwa [show List.replicate d 0 ++ [0] = List.replicate (d + 1) 0 from by
      rw [List.replicate_succ']] at this
  refine ⟨_, by simp [unsigned_literal, hd, hbuf]; rfl, ?_⟩
  simp [StringLiteral.size]

/-- What `signed_literal<N>()` is for every `ssize_t`: the representation of `N`, then
what is left of the zeroed buffer with its space at index `digits`, then the
terminator. -/
theorem signed_literal_eq (N : Int) (hlo : -(2 ^ 63 : Int) ≤ N) (hhi : N < 2 ^ 63) :
    ∃ d, naive_digits10 (ssizeToSize N) = some d ∧ (decimal N).length ≤ d + 1
      ∧ signed_literal N
          = some ⟨(decimal N
              ++ ((List.replicate (d + 1) 0).set d 32).drop (decimal N).length) ++ [0]⟩ := by
  have hsz : ssizeToSize N < 2 ^ 64 := by
    unfold ssizeToSize
    omega
  obtain ⟨d, hd, h1, h2⟩ := naive_digits10_spec (ssizeToSize N) hsz
  have hfit : (decimal N).length ≤ d + 1 := by
    by_cases hneg : N < 0
    · have hval : ssizeToSize N = (N + 2 ^ 64).toNat := by
        unfold ssizeToSize
        congr 1
        omega
      have hbig : ssizeToSize N ≥ SIZE_MAX / 10 := by
        have : SIZE_MAX / 10 = 1844674407370955161 := by decide
        rw [hval, this]; omega
      have hd20 : d = 20 := by
        have : naive_digits10 (ssizeToSize N) = some 20 := by
          unfold naive_digits10; rw [if_pos hbig]; rfl
        rw [this] at hd
        exact (Option.some.inj hd).symm
      have := decimal_length_le N 19 (by decide) (by omega)
      rw [if_pos hneg] at this
      omega
    · have hval : ssizeToSize N = N.toNat := by
        unfold ssizeToSize
        congr 1
        omega
      have := decimal_length_le N d h1 (by rw [hval] at h2; omega)
      rw [if_neg hneg] at this
      omega
  refine ⟨d, hd, hfit, ?_⟩
  have hbuf : (List.replicate (d + 2) 0).set d 32
      = (List.replicate (d + 1) 0).set d 32 ++ [0] := by
    rw [show d + 2 = (d + 1) + 1 from rfl, List.replicate_succ' (d + 1),
      List.set_append_left _ _ (by simp)]
  have hto := to_chars_append ((List.replicate (d + 1) 0).set d 32) [0] (d + 1) N
    (by simp) hfit
  simp only [signed_literal, hd, hbuf, hto, Option.bind_eq_bind, Option.some_bind]
  congr 2
  have hl : (decimal N ++ ((List.replicate (d + 1) 0).set d 32).drop (decimal N).length).length
      = d + 1 := by
    simp; omega
  rw [List.set_append_right _ _ (by omega), hl]
  simp

theorem signed_literal_spec (N : Int) (hlo : -(2 ^ 63 : Int) ≤ N) (hhi : N < 2 ^ 63) :
    ∃ lit, signed_literal N = some lit ∧ 0 < lit.size := by
  obtain ⟨d, _, _, h⟩ := signed_literal_eq N hlo hhi
  exact ⟨_, h, by simp [StringLiteral.size]⟩

/-! ## The composed filler -/

theorem Filler.isNull_null : Filler.null.isNull = true := rfl

theorem Filler.isNull_offset (K : Nat) (f : Filler) : (Filler.offset K f).isNull = false := rfl

theorem Filler.isNull_concat (K : Nat) (a b : Filler) :
    (Filler.concat K a b).isNull = false := rfl

theorem Filler.invoke_concat (K : Nat) (a b : Filler) (chars : List Nat) :
    (Filler.concat K a b).invoke chars
      = (a.invoke chars).bind (fun c =>
          if b.isNull then some c else atOffset K b.run c) := by
  simp only [Filler.invoke, Filler.isNull_concat, Filler.run, Bool.false_eq_true, if_false,
    Option.bind_eq_bind]
  split <;> rfl

theorem Filler.invoke_offset (K : Nat) (b : Filler) (chars : List Nat) :
    (Filler.offset K b).invoke chars
      = if b.isNull then some chars else atOffset K b.run chars := by
  simp only [Filler.invoke, Filler.isNull_offset, Filler.run, Bool.false_eq_true, if_false]

/-- Every overload of `operator+` yields a filler that runs the left filler on the view
and then the right filler on the view shifted by `length()` of the left form. -/
theorem operatorPlus_invoke {lc rc : ValueCategory} {l r f : Form}
    (h : operatorPlus lc l rc r = some f) (chars : List Nat) :
    f.filler.invoke chars
      = (l.filler.invoke chars).bind (fun c =>
          if r.filler.isNull then some c else atOffset (l.KBlank.size - 1) r.filler.run c) := by
  cases lc <;> cases rc <;> simp only [operatorPlus] at h
  · -- both constants
    split at h
    · rename_i hnull
      injection h with h; subst h
      simp [Form.plus_nullNull, Filler.invoke, Filler.isNull_null, hnull.1, hnull.2]
    · exact absurd h (by simp)
  · -- constant on the left
    split at h
    · rename_i hnull
      injection h with h; subst h
      rw [show (l.plus_nullLeft r).filler = .offset (l.KBlank.size - 1) r.filler from rfl,
        Filler.invoke_offset]
      simp [Filler.invoke, hnull]
    · exact absurd h (by simp)
  · -- constant on the right
    split at h
    · rename_i hnull
      injection h with h; subst h
      simp [Form.plus_nullRight, hnull]
    · exact absurd h (by simp)
  · injection h with h; subst h
    simp only [Form.plus, Filler.invoke_concat]

/-- Two fillers in sequence, the second shifted by the width the first one covers. -/
theorem seq_spec (a b : Filler) (la lb : Nat) (ga gb : List Nat → List Nat)
    (hA : ∀ pre suf, pre.length = la →
      (ga pre).length = la ∧ a.invoke (pre ++ suf) = some (ga pre ++ suf))
    (hB : ∀ pre suf, pre.length = lb →
      (gb pre).length = lb ∧ b.invoke (pre ++ suf) = some (gb pre ++ suf))
    (pre suf : List Nat) (hpre : pre.length = la + lb) :
    (a.invoke (pre ++ suf)).bind (fun c =>
        if b.isNull then some c else atOffset la b.run c)
      = some (ga (pre.take la) ++ gb (pre.drop la) ++ suf) := by
  have hsplit : pre ++ suf = pre.take la ++ (pre.drop la ++ suf) := by
    rw [← List.append_assoc, List.take_append_drop]
  have htake : (pre.take la).length = la := by simp; omega
  have hdrop : (pre.drop la).length = lb := by simp; omega
  obtain ⟨hgal, hga⟩ := hA (pre.take la) (pre.drop la ++ suf) htake
  obtain ⟨_, hgb⟩ := hB (pre.drop la) suf hdrop
  rw [hsplit, hga, Option.some_bind]
  by_cases hb : b.isNull = true
  · rw [if_pos hb]
    simp only [Filler.invoke, hb, if_true] at hgb
    have := Option.some.inj hgb
    rw [List.append_assoc, ← this]
  · rw [if_neg hb, atOffset_append _ _ _ _ hgal]
    simp only [Filler.invoke, hb] at hgb
    simp only [Bool.false_eq_true, if_false] at hgb
    rw [hgb]
    simp

/-! ## The form of an expression and what its filler does -/

theorem FormExpr.length_eq {e : FormExpr} {f : Form} (h : e.form = some f) :
    e.length = f.length := by
  simp [FormExpr.length, h]

theorem forms.v_int_eq (T : IntType) (x : Int) (W : Nat)
    (hW : integer_placeholder_length T = some W) :
    forms.v_int T x = some ⟨placeholder W, .int W x⟩ := by
  simp [forms.v_int, hW, forms.k, Form.with_filler]

/-- A valid expression has a form; a constant has the no-op filler; on a view that
starts with `length()` bytes `pre`, the filler replaces `pre` by `fill pre` and touches
nothing else. -/
theorem FormExpr.form_spec (e : FormExpr) (hv : e.valid) :
    ∃ f, e.form = some f ∧ 0 < f.KBlank.size
      ∧ (e.category = .lvalue → f.filler.isNull = true)
      ∧ ∀ pre suf, pre.length = f.length →
          (e.fill pre).length = f.length
            ∧ f.filler.invoke (pre ++ suf) = some (e.fill pre ++ suf) := by
  induction e with
  | k lit =>
    refine ⟨forms.k lit, rfl, hv, fun _ => rfl, fun pre suf hp => ⟨hp, rfl⟩⟩
  | ku n =>
    obtain ⟨lit, hlit, hsz⟩ := unsigned_literal_spec n hv
    refine ⟨⟨lit, .null⟩, by simp [FormExpr.form, forms.ku, hlit], hsz, fun _ => rfl,
      fun pre suf hp => ⟨hp, rfl⟩⟩
  | ki n =>
    obtain ⟨lit, hlit, hsz⟩ := signed_literal_spec n hv.1 hv.2
    refine ⟨⟨lit, .null⟩, by simp [FormExpr.form, forms.ki, hlit], hsz, fun _ => rfl,
      fun pre suf hp => ⟨hp, rfl⟩⟩
  | v_bool b =>
    refine ⟨forms.v_bool b, rfl, ?_, (fun h => by cases h), fun pre suf hp => ?_⟩
    · simp [forms.v_bool, forms.k, Form.with_filler, placeholder_size]
    · have hlen : (forms.v_bool b).length = 5 := by
        simp [forms.v_bool, forms.k, Form.with_filler, Form.length, placeholder_size]
      rw [hlen] at hp ⊢
      refine ⟨by cases b <;> rfl, ?_⟩
      exact run_bool_append b pre suf hp
  | v_int T x =>
    obtain ⟨W, hW, hfit⟩ := decimal_fits T x hv
    have hform : (FormExpr.v_int T x).form = some ⟨placeholder W, .int W x⟩ :=
      forms.v_int_eq T x W hW
    have hlen : (Form.mk (placeholder W) (.int W x)).length = W := by
      simp [Form.length, placeholder_size]
    refine ⟨_, hform, by simp [placeholder_size], (fun h => by cases h), fun pre suf hp => ?_⟩
    rw [hlen] at hp ⊢
    have hfill : (FormExpr.v_int T x).fill pre
        = decimal x ++ List.replicate (W - (decimal x).length) 32 := by
      simp [FormExpr.fill, FormExpr.length_eq hform, hlen]
    rw [hfill]
    refine ⟨by simp; omega, ?_⟩
    exact run_int_append W x pre suf hp hfit
  | v_text K src =>
    have hlen : (forms.v_text K src).length = K := by
      simp [forms.v_text, forms.k, Form.with_filler, Form.length, placeholder_size]
    refine ⟨forms.v_text K src, rfl, ?_, (fun h => by cases h), fun pre suf hp => ?_⟩
    · simp [forms.v_text, forms.k, Form.with_filler, placeholder_size]
    · rw [hlen] at hp ⊢
      have hv' : K ≤ src.length := hv
      refine ⟨by simp [FormExpr.fill]; exact hv', ?_⟩
      exact run_text_append K src pre suf hp hv'
  | plus l r ihl ihr =>
    obtain ⟨fl, hfl, hsl, hcl, hrunl⟩ := ihl hv.1
    obtain ⟨fr, hfr, hsr, hcr, hrunr⟩ := ihr hv.2
    have hop : ∃ f, operatorPlus l.category fl r.category fr = some f := by
      cases hlc : l.category <;> cases hrc : r.category <;>
        simp [operatorPlus, hcl, hcr, hlc, hrc]
    obtain ⟨f, hf⟩ := hop
    have hform : (FormExpr.plus l r).form = some f := by
      simp [FormExpr.form, hfl, hfr, hf]
    have hK := operatorPlus_KBlank hf
    have hsize : f.KBlank.size = fl.KBlank.size - 1 + fr.KBlank.size := by
      rw [hK, StringLiteral.plus_size]
    have hlen : f.length = fl.length + fr.length := by
      simp only [Form.length, hsize]; omega
    refine ⟨f, hform, by omega, ?_, fun pre suf hp => ?_⟩
    · intro h; cases h
    · rw [hlen] at hp ⊢
      have hfill : (FormExpr.plus l r).fill pre
          = l.fill (pre.take fl.length) ++ r.fill (pre.drop fl.length) := by
        simp [FormExpr.fill, FormExpr.length_eq hfl]
      rw [hfill, operatorPlus_invoke hf]
      refine ⟨?_, ?_⟩
      · rw [List.length_append, (hrunl (pre.take fl.length) [] (by simp; omega)).1,
          (hrunr (pre.drop fl.length) [] (by simp; omega)).1]
      · exact seq_spec fl.filler fr.filler fl.length fr.length l.fill r.fill hrunl hrunr
          pre suf hp

/-- The facts of `form_spec` about a form that is known. -/
theorem FormExpr.form_spec_of (e : FormExpr) (hv : e.valid) (f : Form)
    (hf : e.form = some f) :
    0 < f.KBlank.size ∧ (e.category = .lvalue → f.filler.isNull = true)
      ∧ ∀ pre suf, pre.length = f.length →
          (e.fill pre).length = f.length
            ∧ f.filler.invoke (pre ++ suf) = some (e.fill pre ++ suf) := by
  obtain ⟨f', hf', h⟩ := e.form_spec hv
  have e : f' = f := Option.some.inj (hf'.symm.trans hf)
  rw [e] at h
  exact h

/-! ## Blank regions and the bytes a filler leaves alone -/

theorem FormExpr.length_plus (l r : FormExpr) (hv : (FormExpr.plus l r).valid) :
    (FormExpr.plus l r).length = l.length + r.length := by
  obtain ⟨fl, hfl, hsl, hcl, _⟩ := l.form_spec hv.1
  obtain ⟨fr, hfr, hsr, hcr, _⟩ := r.form_spec hv.2
  obtain ⟨f, hf, _, _, _⟩ := (FormExpr.plus l r).form_spec hv
  have hop : operatorPlus l.category fl r.category fr = some f := by
    simpa [FormExpr.form, hfl, hfr] using hf
  rw [FormExpr.length_eq hf, FormExpr.length_eq hfl, FormExpr.length_eq hfr]
  simp only [Form.length, operatorPlus_KBlank hop, StringLiteral.plus_size]
  omega

theorem FormExpr.fill_length (e : FormExpr) (hv : e.valid) (pre : List Nat)
    (hp : pre.length = e.length) : (e.fill pre).length = e.length := by
  obtain ⟨f, hf, _, _, hrun⟩ := e.form_spec hv
  rw [FormExpr.length_eq hf] at hp ⊢
  exact (hrun pre [] hp).1

/-- A blank region lies inside the text, before the terminator. -/
theorem FormExpr.blank_lt (e : FormExpr) (hv : e.valid) (i : Nat) (hb : e.blank i = true) :
    i < e.length := by
  induction e generalizing i with
  | k lit => simp [FormExpr.blank] at hb
  | ku n => simp [FormExpr.blank] at hb
  | ki n => simp [FormExpr.blank] at hb
  | v_bool b =>
    have : (FormExpr.v_bool b).length = 5 := by
      simp [FormExpr.length, FormExpr.form, forms.v_bool, forms.k, Form.with_filler,
        Form.length, placeholder_size]
    simp [FormExpr.blank] at hb
    omega
  | v_int T x => simpa [FormExpr.blank] using hb
  | v_text K src =>
    have : (FormExpr.v_text K src).length = K := by
      simp [FormExpr.length, FormExpr.form, forms.v_text, forms.k, Form.with_filler,
        Form.length, placeholder_size]
    simp [FormExpr.blank] at hb
    omega
  | plus l r ihl ihr =>
    rw [FormExpr.length_plus l r hv]
    simp only [FormExpr.blank, Bool.or_eq_true, Bool.and_eq_true, decide_eq_true_eq] at hb
    rcases hb with h | ⟨h1, h2⟩
    · have := ihl hv.1 i h; omega
    · have := ihr hv.2 _ h2; omega

/-- Outside the blank regions the filler leaves every byte as it was. -/
theorem FormExpr.fill_frame (e : FormExpr) (hv : e.valid) (pre : List Nat)
    (hp : pre.length = e.length) (i : Nat) (hb : e.blank i = false) :
    (e.fill pre)[i]? = pre[i]? := by
  induction e generalizing i pre with
  | k lit => rfl
  | ku n => rfl
  | ki n => rfl
  | v_bool b =>
    have hl : (FormExpr.v_bool b).length = 5 := by
      simp [FormExpr.length, FormExpr.form, forms.v_bool, forms.k, Form.with_filler,
        Form.length, placeholder_size]
    simp [FormExpr.blank] at hb
    have h1 := FormExpr.fill_length _ hv pre hp
    rw [List.getElem?_eq_none (by omega), List.getElem?_eq_none (by omega)]
  | v_int T x =>
    simp [FormExpr.blank] at hb
    have h1 := FormExpr.fill_length _ hv pre hp
    rw [List.getElem?_eq_none (by omega), List.getElem?_eq_none (by omega)]
  | v_text K src =>
    have hl : (FormExpr.v_text K src).length = K := by
      simp [FormExpr.length, FormExpr.form, forms.v_text, forms.k, Form.with_filler,
        Form.length, placeholder_size]
    simp [FormExpr.blank] at hb
    have h1 := FormExpr.fill_length _ hv pre hp
    rw [List.getElem?_eq_none (by omega), List.getElem?_eq_none (by omega)]
  | plus l r ihl ihr =>
    rw [FormExpr.length_plus l r hv] at hp
    have htake : (pre.take l.length).length = l.length := by simp; omega
    have hdrop : (pre.drop l.length).length = r.length := by simp; omega
    have hfl := FormExpr.fill_length l hv.1 _ htake
    simp only [FormExpr.blank, Bool.or_eq_false_iff, Bool.and_eq_false_iff,
      decide_eq_false_iff_not] at hb
    simp only [FormExpr.fill]
    by_cases hi : i < l.length
    · rw [List.getElem?_append_left (by omega), ihl hv.1 _ htake i hb.1,
        List.getElem?_take_of_lt hi]
    · have hr : r.blank (i - l.length) = false := by
        rcases hb.2 with h | h
        · omega
        · exact h
      rw [List.getElem?_append_right (by omega), hfl, ihr hv.2 _ hdrop _ hr,
        List.getElem?_drop]
      congr 1
      omega

/-- Inside a blank region the byte the filler leaves does not depend on what the view
held before. -/
theorem FormExpr.fill_blank (e : FormExpr) (hv : e.valid) (pre pre' : List Nat)
    (hp : pre.length = e.length) (hp' : pre'.length = e.length) (i : Nat)
    (hb : e.blank i = true) : (e.fill pre)[i]? = (e.fill pre')[i]? := by
  induction e generalizing i pre pre' with
  | k lit => simp [FormExpr.blank] at hb
  | ku n => simp [FormExpr.blank] at hb
  | ki n => simp [FormExpr.blank] at hb
  | v_bool b => rfl
  | v_int T x => rfl
  | v_text K src => rfl
  | plus l r ihl ihr =>
    rw [FormExpr.length_plus l r hv] at hp hp'
    have htake : (pre.take l.length).length = l.length := by simp; omega
    have hdrop : (pre.drop l.length).length = r.length := by simp; omega
    have htake' : (pre'.take l.length).length = l.length := by simp; omega
    have hdrop' : (pre'.drop l.length).length = r.length := by simp; omega
    have hfl := FormExpr.fill_length l hv.1 _ htake
    have hfl' := FormExpr.fill_length l hv.1 _ htake'
    simp only [FormExpr.blank, Bool.or_eq_true, Bool.and_eq_true, decide_eq_true_eq] at hb
    simp only [FormExpr.fill]
    by_cases hi : i < l.length
    · rw [List.getElem?_append_left (by omega), List.getElem?_append_left (by omega)]
      by_cases hbl : l.blank i = true
      · exact ihl hv.1 _ _ htake htake' i hbl
      · exfalso
        rcases hb with h | ⟨h, _⟩
        · exact hbl h
        · omega
    · have hbr : r.blank (i - l.length) = true := by
        rcases hb with h | ⟨_, h⟩
        · have := FormExpr.blank_lt l hv.1 i h; omega
        · exact h
      rw [List.getElem?_append_right (by omega), List.getElem?_append_right (by omega),
        hfl, hfl']
      exact ihr hv.2 _ _ hdrop hdrop' _ hbr

/-! ## Renders -/

theorem Form.write_to_Buffer_eq (f : Form) (buf : List Nat) :
    f.write_to_Buffer buf = f.filler.invoke buf := rfl

theorem Form.write_to_ConstInitBuffer_eq (f : Form) (buf : List Nat) :
    f.write_to_ConstInitBuffer buf = f.filler.invoke buf := rfl

theorem BlankBuffer_eq (KBlank : StringLiteral) (a : List Nat) (h : KBlank.size ≤ a.length) :
    BlankBuffer KBlank a = some (KBlank.data ++ a.drop KBlank.size) := by
  simp [BlankBuffer, copy_n, h, StringLiteral.size, StringLiteral.data]
  exact h

theorem ConstInitBlankBuffer_eq (KBlank : StringLiteral) (raw : List Nat)
    (h : raw.length = KBlank.size) : ConstInitBlankBuffer KBlank raw = some KBlank.data := by
  have h' : raw.length = KBlank._data.length := h
  simp [ConstInitBlankBuffer, copy_n, h, StringLiteral.size, StringLiteral.data, h',
    List.drop_of_length_le (le_of_eq h')]

/-- The filler of a valid expression on any view that holds the whole text. -/
theorem FormExpr.invoke_eq (e : FormExpr) (hv : e.valid) (f : Form) (hf : e.form = some f)
    (chars : List Nat) (h : f.length ≤ chars.length) :
    f.filler.invoke chars = some (e.fill (chars.take f.length) ++ chars.drop f.length) := by
  obtain ⟨_, _, hrun⟩ := e.form_spec_of hv f hf
  have := (hrun (chars.take f.length) (chars.drop f.length) (by simp; omega)).2
  rwa [List.take_append_drop] at this

/-- The bytes a full render of the expression `e` with form `f` produces. -/
theorem renderStatic_eq (e : FormExpr) (hv : e.valid) (f : Form) (hf : e.form = some f)
    (raw : List Nat) (h : raw.length = f.KBlank.size) :
    renderStatic f raw
      = some (e.fill (f.KBlank.data.take f.length) ++ f.KBlank.data.drop f.length) := by
  simp only [renderStatic, ConstInitBlankBuffer_eq _ _ h, Option.bind_eq_bind,
    Option.some_bind, Form.write_to_ConstInitBuffer_eq]
  exact e.invoke_eq hv f hf _ (by simp [Form.length, StringLiteral.size, StringLiteral.data])

theorem renderTransient_eq (e : FormExpr) (hv : e.valid) (f : Form) (hf : e.form = some f)
    (a : List Nat) (h : f.KBlank.size ≤ a.length) :
    renderTransient f a
      = some (e.fill (f.KBlank.data.take f.length) ++ f.KBlank.data.drop f.length
          ++ a.drop f.KBlank.size) := by
  simp only [renderTransient, BlankBuffer_eq _ _ h, Option.bind_eq_bind,
    Option.some_bind, Form.write_to_Buffer_eq]
  have hlen : f.length ≤ f.KBlank.data.length := by
    simp [Form.length, StringLiteral.size, StringLiteral.data]
  rw [e.invoke_eq hv f hf _ (by simp; omega), List.take_append_of_le_length hlen,
    List.drop_append_of_le_length hlen, List.append_assoc]

/-! ## The rendered text of a concatenation -/

/-- The rendered text of `left + right` is the rendered text of `left` without its last
byte, followed by the rendered text of `right`. -/
theorem FormExpr.rendered_plus (L R : FormExpr) (hL : L.valid) (hR : R.valid)
    (fL fR f : Form) (hfL : L.form = some fL) (hfR : R.form = some fR)
    (hf : (FormExpr.plus L R).form = some f) :
    (FormExpr.plus L R).fill (f.KBlank.data.take f.length) ++ f.KBlank.data.drop f.length
      = (L.fill (fL.KBlank.data.take fL.length) ++ fL.KBlank.data.drop fL.length).take fL.length
          ++ (R.fill (fR.KBlank.data.take fR.length) ++ fR.KBlank.data.drop fR.length) := by
  obtain ⟨hsL, _, hrunL⟩ := L.form_spec_of hL fL hfL
  obtain ⟨hsR, _, hrunR⟩ := R.form_spec_of hR fR hfR
  have hop : operatorPlus L.category fL R.category fR = some f := by
    simpa [FormExpr.form, hfL, hfR] using hf
  have hK := operatorPlus_KBlank hop
  have hlen : f.length = fL.length + fR.length := by
    simp only [Form.length, hK, StringLiteral.plus_size]; omega
  have hLlen : fL.length ≤ fL.KBlank.data.length := by
    simp [Form.length, StringLiteral.size, StringLiteral.data]
  have hRlen : fR.length ≤ fR.KBlank.data.length := by
    simp [Form.length, StringLiteral.size, StringLiteral.data]
  have htl : (fL.KBlank.data.take fL.length).length = fL.length := by simp; omega
  have hdata : f.KBlank.data = fL.KBlank.data.take fL.length ++ fR.KBlank.data := by
    rw [hK, StringLiteral.plus_data]; rfl
  have hfillL := (hrunL (fL.KBlank.data.take fL.length) [] htl).1
  have htake : f.KBlank.data.take f.length
      = fL.KBlank.data.take fL.length ++ fR.KBlank.data.take fR.length := by
    rw [hdata, hlen, List.take_append_eq_append_take, htl,
      List.take_of_length_le (by omega)]
    congr 2
    omega
  have hdrop : f.KBlank.data.drop f.length = fR.KBlank.data.drop fR.length := by
    rw [hdata, hlen, List.drop_append_eq_append_drop, htl,
      List.drop_of_length_le (by omega), List.nil_append]
    congr 1
    omega
  have h1 : (FormExpr.plus L R).fill
      (fL.KBlank.data.take fL.length ++ fR.KBlank.data.take fR.length)
      = L.fill (fL.KBlank.data.take fL.length) ++ R.fill (fR.KBlank.data.take fR.length) := by
    simp only [FormExpr.fill, FormExpr.length_eq hfL]
    rw [List.take_left' htl, List.drop_left' htl]
  have h2 : (L.fill (fL.KBlank.data.take fL.length) ++ fL.KBlank.data.drop fL.length).take
      fL.length = L.fill (fL.KBlank.data.take fL.length) := List.take_left' hfillL
  rw [htake, hdrop, h1, h2, List.append_assoc]

/-! ## Renders into a Persistent-fingerprinted buffer -/

theorem sentinelBase_length (f : Form) (s : SentinelBuffer)
    (hfit : f.KBlank.size ≤ s._data.length) : (sentinelBase f s).length = s._data.length := by
  unfold sentinelBase
  split
  · rfl
  · have : f.KBlank.data.length = f.KBlank.size := rfl
    rw [List.length_append, List.length_drop, this]
    omega

theorem write_to_SentinelBuffer_eq (e : FormExpr) (hv : e.valid) (f : Form)
    (hf : e.form = some f) (s : SentinelBuffer) (hfit : f.KBlank.size ≤ s._data.length) :
    f.write_to_SentinelBuffer s
      = some ⟨s.sentinel, e.fill ((sentinelBase f s).take f.length)
          ++ (sentinelBase f s).drop f.length⟩ := by
  have hlen : f.length ≤ (sentinelBase f s).length := by
    rw [sentinelBase_length f s hfit]; simp only [Form.length]; omega
  have hinv := e.invoke_eq hv f hf _ hlen
  unfold Form.write_to_SentinelBuffer
  by_cases hnull : f.filler.isNull = true
  · have hb : sentinelBase f s = s._data := by simp [sentinelBase, hnull]
    rw [if_pos hnull]
    rw [hb] at hinv ⊢
    simp only [Filler.invoke, hnull, if_true] at hinv
    rw [← Option.some.inj hinv]
  · rw [if_neg hnull]
    simp only [Filler.invoke, hnull, Bool.false_eq_true, if_false] at hinv
    by_cases hh : s.sentinel = f.KBlank.hash
    · have hb : sentinelBase f s = s._data := by simp [sentinelBase, hh]
      rw [hb] at hinv
      simp [SentinelBuffer.data, hfit, hh, hinv, hb]
    · have hb : sentinelBase f s = f.KBlank.data ++ s._data.drop f.KBlank.size := by
        simp [sentinelBase, hnull, hh]
      have hcopy : copy_n f.KBlank.data f.KBlank.size s._data
          = some (f.KBlank.data ++ s._data.drop f.KBlank.size) := by
        have : f.KBlank._data.length ≤ s._data.length := hfit
        simp [copy_n, StringLiteral.size, StringLiteral.data, this]
      rw [hb] at hinv
      simp [SentinelBuffer.data, hfit, hh, hcopy, hinv, hb]

/-- Two expressions that differ in their values only have the same static text, the same
kind of filler, and the same blank regions. -/
theorem FormExpr.sameShape_spec (e1 : FormExpr) :
    ∀ (e2 : FormExpr), e1.sameShape e2 = true → e1.valid → e2.valid →
      ∀ f1 f2, e1.form = some f1 → e2.form = some f2 →
        f1.KBlank = f2.KBlank ∧ f1.filler.isNull = f2.filler.isNull
          ∧ e1.category = e2.category ∧ ∀ i, e1.blank i = e2.blank i := by
  induction e1 with
  | k a =>
    intro e2 hs _ _ f1 f2 h1 h2
    cases e2 <;> simp [FormExpr.sameShape] at hs
    subst hs
    obtain rfl := Option.some.inj (h1.symm.trans h2)
    exact ⟨rfl, rfl, rfl, fun _ => rfl⟩
  | ku a =>
    intro e2 hs _ _ f1 f2 h1 h2
    cases e2 <;> simp [FormExpr.sameShape] at hs
    subst hs
    obtain rfl := Option.some.inj (h1.symm.trans h2)
    exact ⟨rfl, rfl, rfl, fun _ => rfl⟩
  | ki a =>
    intro e2 hs _ _ f1 f2 h1 h2
    cases e2 <;> simp [FormExpr.sameShape] at hs
    subst hs
    obtain rfl := Option.some.inj (h1.symm.trans h2)
    exact ⟨rfl, rfl, rfl, fun _ => rfl⟩
  | v_bool a =>
    intro e2 hs _ _ f1 f2 h1 h2
    cases e2 <;> simp [FormExpr.sameShape] at hs
    obtain rfl := Option.some.inj h1
    obtain rfl := Option.some.inj h2
    exact ⟨rfl, rfl, rfl, fun _ => rfl⟩
  | v_int T x =>
    intro e2 hs hv1 hv2 f1 f2 h1 h2
    cases e2 <;> simp [FormExpr.sameShape] at hs
    subst hs
    rename_i y
    obtain ⟨W, hW, _⟩ := decimal_fits T x hv1
    have g1 : (FormExpr.v_int T x).form = some ⟨placeholder W, .int W x⟩ :=
      forms.v_int_eq T x W hW
    have g2 : (FormExpr.v_int T y).form = some ⟨placeholder W, .int W y⟩ :=
      forms.v_int_eq T y W hW
    obtain rfl := Option.some.inj (h1.symm.trans g1)
    obtain rfl := Option.some.inj (h2.symm.trans g2)
    refine ⟨rfl, rfl, rfl, fun i => ?_⟩
    simp [FormExpr.blank, FormExpr.length_eq g1, FormExpr.length_eq g2, Form.length]
  | v_text n a =>
    intro e2 hs _ _ f1 f2 h1 h2
    cases e2 <;> simp [FormExpr.sameShape] at hs
    subst hs
    obtain rfl := Option.some.inj h1
    obtain rfl := Option.some.inj h2
    exact ⟨rfl, rfl, rfl, fun _ => rfl⟩
  | plus l r ihl ihr =>
    intro e2 hs hv1 hv2 f1 f2 h1 h2
    cases e2 <;> simp [FormExpr.sameShape] at hs
    rename_i l2 r2
    obtain ⟨fl, hfl, _⟩ := l.form_spec hv1.1
    obtain ⟨fr, hfr, _⟩ := r.form_spec hv1.2
    obtain ⟨fl2, hfl2, _⟩ := l2.form_spec hv2.1
    obtain ⟨fr2, hfr2, _⟩ := r2.form_spec hv2.2
    obtain ⟨hlK, hlN, hlC, hlB⟩ := ihl l2 hs.1 hv1.1 hv2.1 fl fl2 hfl hfl2
    obtain ⟨hrK, hrN, hrC, hrB⟩ := ihr r2 hs.2 hv1.2 hv2.2 fr fr2 hfr hfr2
    have hop1 : operatorPlus l.category fl r.category fr = some f1 := by
      simpa [FormExpr.form, hfl, hfr] using h1
    have hop2 : operatorPlus l.category fl2 r.category fr2 = some f2 := by
      simpa [FormExpr.form, hfl2, hfr2, hlC, hrC] using h2
    have hK : f1.KBlank = f2.KBlank := by
      rw [operatorPlus_KBlank hop1, operatorPlus_KBlank hop2, hlK, hrK]
    have hlen : l.length = l2.length := by
      rw [FormExpr.length_eq hfl, FormExpr.length_eq hfl2, Form.length, Form.length, hlK]
    refine ⟨hK, ?_, rfl, fun i => ?_⟩
    · cases hlc : l.category <;> cases hrc : r.category <;>
        simp only [hlc, hrc, operatorPlus] at hop1 hop2
      · split at hop1 <;> split at hop2 <;> simp at hop1 hop2
        subst hop1; subst hop2; rfl
      · split at hop1 <;> split at hop2 <;> simp at hop1 hop2
        subst hop1; subst hop2; rfl
      · split at hop1 <;> split at hop2 <;> simp at hop1 hop2
        subst hop1; subst hop2; exact hlN
      · simp at hop1 hop2
        subst hop1; subst hop2; rfl
    · simp only [FormExpr.blank, hlB, hrB, hlen]

/-- Outside the blank regions the filler leaves a view that holds the text as it was. -/
theorem FormExpr.view_frame (e : FormExpr) (hv : e.valid) (f : Form) (hf : e.form = some f)
    (X : List Nat) (hle : f.length ≤ X.length) (i : Nat) (hb : e.blank i = false) :
    (e.fill (X.take f.length) ++ X.drop f.length)[i]? = X[i]? := by
  have htake : (X.take f.length).length = e.length := by
    rw [FormExpr.length_eq hf]; simp; omega
  have hfill := e.fill_length hv _ htake
  rw [FormExpr.length_eq hf] at hfill
  by_cases hi : i < f.length
  · rw [List.getElem?_append_left (by omega), e.fill_frame hv _ htake i hb,
      List.getElem?_take_of_lt hi]
  · rw [List.getElem?_append_right (by omega), hfill, List.getElem?_drop]
    congr 1
    omega

/-- Inside a blank region the byte the filler leaves is the same on every view. -/
theorem FormExpr.view_blank (e : FormExpr) (hv : e.valid) (f : Form) (hf : e.form = some f)
    (X Y : List Nat) (hX : f.length ≤ X.length) (hY : f.length ≤ Y.length) (i : Nat)
    (hb : e.blank i = true) :
    (e.fill (X.take f.length) ++ X.drop f.length)[i]?
      = (e.fill (Y.take f.length) ++ Y.drop f.length)[i]? := by
  have hXt : (X.take f.length).length = e.length := by
    rw [FormExpr.length_eq hf]; simp; omega
  have hYt : (Y.take f.length).length = e.length := by
    rw [FormExpr.length_eq hf]; simp; omega
  have hi := e.blank_lt hv i hb
  have h1 := e.fill_length hv _ hXt
  have h2 := e.fill_length hv _ hYt
  rw [List.getElem?_append_left (by omega), List.getElem?_append_left (by omega)]
  exact e.fill_blank hv _ _ hXt hYt i hb

/-! ## The number of decimal digits -/

theorem toDigitsCore_length_eq (fuel : Nat) :
    ∀ (n d : Nat) (acc : List Char), n < fuel → 1 ≤ d → (d = 1 ∨ 10 ^ (d - 1) ≤ n) →
      n < 10 ^ d → (Nat.toDigitsCore 10 fuel n acc).length = d + acc.length := by
  induction fuel with
  | zero => intro n d acc h; omega
  | succ fuel ih =>
    intro n d acc hfuel hd hlow hhigh
    unfold Nat.toDigitsCore
    by_cases h0 : n / 10 = 0
    · simp only [h0, if_true, List.length_cons]
      have hn : n < 10 := by omega
      have : d = 1 := by
        rcases hlow with h | h
        · exact h
        · by_contra hne
          have : 10 ^ 1 ≤ 10 ^ (d - 1) := Nat.pow_le_pow_right (by decide) (by omega)
          omega
      omega
    · simp only [h0, if_false]
      have hn : 10 ≤ n := by omega
      have hd2 : 2 ≤ d := by
        by_contra hne
        have : d = 1 := by omega
        subst this
        omega
      have hlow' : 10 ^ (d - 1) ≤ n := by
        rcases hlow with h | h
        · omega
        · exact h
      have e1 : 10 ^ (d - 1) = 10 ^ (d - 2) * 10 := by
        rw [← Nat.pow_succ]; congr 1; omega
      have e2 : 10 ^ d = 10 ^ (d - 1) * 10 := by
        rw [← Nat.pow_succ]; congr 1; omega
      have := ih (n / 10) (d - 1) (Nat.digitChar (n % 10) :: acc) (by omega) (by omega)
        (Or.inr (by
          rw [show d - 1 - 1 = d - 2 from by omega]
          rw [Nat.le_div_iff_mul_le (by decide)]
          omega))
        (by rw [Nat.div_lt_iff_lt_mul (by decide)]; omega)
      rw [this, List.length_cons]
      omega

theorem digitCount_eq (n d : Nat) (hd : 1 ≤ d) (hlow : d = 1 ∨ 10 ^ (d - 1) ≤ n)
    (hhigh : n < 10 ^ d) : digitCount n = d := by
  have := toDigitsCore_length_eq (n + 1) n d [] (by omega) hd hlow hhigh
  simpa [digitCount, Nat.toDigits] using this

theorem digitCount_le (n d : Nat) (hd : 1 ≤ d) (hhigh : n < 10 ^ d) : digitCount n ≤ d :=
  Nat.toDigitsCore_length 10 (by decide) (n + 1) n d hhigh hd

theorem decimal_natCast (n : Nat) : (decimal (n : Int)).length = digitCount n := by
  have h : ¬ ((n : Int) < 0) := by omega
  simp [decimal, digitCount, h]

theorem naive_digits10_loop_products_le (fuel : Nat) :
    ∀ (n log p : Nat), p = 10 ^ log → n < SIZE_MAX / 10 →
      ∀ q ∈ naive_digits10_loop_products fuel n p, q ≤ SIZE_MAX := by
  have hmax : SIZE_MAX / 10 = 1844674407370955161 := by decide
  have hmax' : SIZE_MAX = 18446744073709551615 := by decide
  induction fuel with
  | zero => intro n log p _ _ q hq; simp [naive_digits10_loop_products] at hq
  | succ fuel ih =>
    intro n log p hp hn q hq
    rw [hmax] at hn
    unfold naive_digits10_loop_products at hq
    by_cases hle : p ≤ n
    · rw [if_pos hle] at hq
      have hlt : log < 19 := by
        by_contra hcon
        have : 10 ^ 19 ≤ 10 ^ log := Nat.pow_le_pow_right (by decide) (by omega)
        omega
      have hp10 : p * 10 = 10 ^ (log + 1) := by rw [hp, Nat.pow_succ]
      have hsmall : p * 10 ≤ SIZE_MAX := by rw [hmax']; omega
      have e2 : p * 10 % 2 ^ 64 = 10 ^ (log + 1) := by
        rw [← hp10]; exact Nat.mod_eq_of_lt (by rw [hmax'] at hsmall; omega)
      rcases List.mem_cons.mp hq with h | h
      · rw [h]; exact hsmall
      · rw [e2] at h
        exact ih n (log + 1) _ rfl (by rw [hmax]; exact hn) q h
    · rw [if_neg hle] at hq
      simp at hq

/-! ## `naive_digits10` is exact below `SIZE_MAX / 10` -/

theorem naive_digits10_loop_exact (n fuel : Nat) (hn : n < SIZE_MAX / 10) (hfuel : 19 ≤ fuel) :
    naive_digits10_loop fuel n 1 10 = some (digitCount n) := by
  obtain ⟨d, hd, h1, h2, h3⟩ :=
    naive_digits10_loop_spec fuel n 1 10 rfl (le_refl _) (Or.inl rfl) hn (by omega)
  rw [hd, digitCount_eq n d h1 h3 h2]

theorem naive_digits10_exact (n : Nat) (hn : n < SIZE_MAX / 10) :
    naive_digits10 n = some (digitCount n) := by
  unfold naive_digits10
  rw [if_neg (by omega)]
  exact naive_digits10_loop_exact n 64 hn (by decide)

theorem drop_set_replicate (d : Nat) :
    ((List.replicate (d + 1) 0).set d 32).drop d = [32] := by
  rw [List.replicate_succ', List.set_append_right _ _ (by simp)]
  simp

/-- Below `SIZE_MAX / 10` the text of `unsigned_literal<N>()` is the digits of `N` and the
terminator. -/
theorem unsigned_literal_exact (N : Nat) (hN : N < SIZE_MAX / 10) :
    unsigned_literal N = some ⟨decimal (N : Int) ++ [0]⟩ := by
  have hlen := decimal_natCast N
  have hto := to_chars_append (List.replicate (digitCount N) 0) [0] (digitCount N) (N : Int)
    (by simp) (le_of_eq hlen)
  rw [← List.replicate_succ'] at hto
  simp only [unsigned_literal, naive_digits10_exact N hN, hto, Option.bind_eq_bind,
    Option.some_bind]
  congr 2
  rw [hlen, List.drop_of_length_le (by simp), List.append_nil,
    List.set_append_right _ _ (by omega), hlen]
  simp

/-- For a negative constant the argument of `naive_digits10` is the constant converted to
`size_t`, the buffer has 22 bytes, and NUL bytes stand between the digits and the
space. -/
theorem signed_literal_negative :
    signed_literal (-5)
      = some ⟨[45, 53] ++ List.replicate 18 0 ++ [32, 0]⟩ := by
  decide

/-! ## Pure-literal expressions, the sum over the leaves -/

theorem FormExpr.fill_pureLiteral (e : FormExpr) (h : e.pureLiteral = true)
    (pre : List Nat) : e.fill pre = pre := by
  induction e generalizing pre with
  | k _ => rfl
  | ku _ => rfl
  | ki _ => rfl
  | v_bool _ => simp [FormExpr.pureLiteral] at h
  | v_int _ _ => simp [FormExpr.pureLiteral] at h
  | v_text _ _ => simp [FormExpr.pureLiteral] at h
  | plus l r ihl ihr =>
    simp only [FormExpr.pureLiteral, Bool.and_eq_true] at h
    simp only [FormExpr.fill, ihl h.1, ihr h.2, List.take_append_drop]

theorem FormExpr.length_eq_leafSum (e : FormExpr) (hv : e.valid) : e.length = e.leafSum := by
  induction e with
  | k lit => rfl
  | ku n =>
    obtain ⟨lit, hlit, _⟩ := unsigned_literal_spec n hv
    simp [FormExpr.length, FormExpr.form, forms.ku, FormExpr.leafSum, hlit, Form.length]
  | ki n =>
    obtain ⟨lit, hlit, _⟩ := signed_literal_spec n hv.1 hv.2
    simp [FormExpr.length, FormExpr.form, forms.ki, FormExpr.leafSum, hlit, Form.length]
  | v_bool b =>
    simp [FormExpr.length, FormExpr.form, forms.v_bool, forms.k, Form.with_filler,
      Form.length, placeholder_size, FormExpr.leafSum]
  | v_int T x =>
    obtain ⟨W, hW, _⟩ := decimal_fits T x hv
    simp [FormExpr.length, FormExpr.form, forms.v_int_eq T x W hW, FormExpr.leafSum, hW,
      Form.length, placeholder_size]
  | v_text K src =>
    simp [FormExpr.length, FormExpr.form, forms.v_text, forms.k, Form.with_filler,
      Form.length, placeholder_size, FormExpr.leafSum]
  | plus l r ihl ihr =>
    rw [FormExpr.length_plus l r hv, ihl hv.1, ihr hv.2]
    rfl

/-! ## The state of a Persistent-fingerprinted buffer -/

theorem SentinelBuffer.data_sentinel {KBlank : StringLiteral} {s s' : SentinelBuffer}
    (h : s.data KBlank = some s') : s'.sentinel = s.sentinel := by
  unfold SentinelBuffer.data at h
  split at h
  · split at h
    · cases hc : copy_n KBlank.data KBlank.size s._data with
      | none => simp [hc] at h
      | some d =>
        simp [hc] at h
        rw [← h]
    · rw [← Option.some.inj h]
  · exact absurd h (by simp)

theorem Form.write_to_SentinelBuffer_sentinel {f : Form} {s s' : SentinelBuffer}
    (h : f.write_to_SentinelBuffer s = some s') : s'.sentinel = s.sentinel := by
  unfold Form.write_to_SentinelBuffer at h
  split at h
  · rw [← Option.some.inj h]
  · cases hb : s.data f.KBlank with
    | none => simp [hb] at h
    | some b =>
      cases hd : f.filler.run b._data with
      | none => simp [hb, hd] at h
      | some d =>
        simp [hb, hd] at h
        rw [← h]
        exact (SentinelBuffer.data_sentinel hb : b.sentinel = s.sentinel)

/-- The fingerprint field of every state that can be reached is still 0. -/
theorem SentinelBuffer.Reachable.sentinel_eq {s : SentinelBuffer} (h : s.Reachable) :
    s.sentinel = 0 := by
  induction h with
  | fresh raw => rfl
  | render f s s' _ hw ih => rw [Form.write_to_SentinelBuffer_sentinel hw, ih]
  | read K s s' _ hd ih => rw [SentinelBuffer.data_sentinel hd, ih]

/-! # The claims -/

/-- C1: for expressions `L` and `R` built from `k`, `ku`, `ki`, `v` and `+` (operands as C++
admits), `L + R` has a form whose `length()` is the sum of the two lengths; its render
into a Static-once buffer is the render of `L` without its last byte (the terminator)
followed by the whole render of `R`; the same holds for the first `size()` bytes of a
Transient buffer over any array that is large enough, whose other bytes stay as they
were. So every value of `R` lands at its offset shifted by `length(L)` and neither side
overwrites the other. -/
theorem concat_render (L R : FormExpr) (hL : L.valid) (hR : R.valid) :
    ∃ fL fR f, L.form = some fL ∧ R.form = some fR ∧ (FormExpr.plus L R).form = some f
      ∧ f.length = fL.length + fR.length
      ∧ (∀ rawL rawR raw : List Nat, rawL.length = fL.KBlank.size →
          rawR.length = fR.KBlank.size → raw.length = f.KBlank.size →
          ∃ outL outR, renderStatic fL rawL = some outL ∧ renderStatic fR rawR = some outR
            ∧ renderStatic f raw = some (outL.take fL.length ++ outR))
      ∧ (∀ aL aR a : List Nat, fL.KBlank.size ≤ aL.length →
          fR.KBlank.size ≤ aR.length → f.KBlank.size ≤ a.length →
          ∃ outL outR out, renderTransient fL aL = some outL
            ∧ renderTransient fR aR = some outR ∧ renderTransient f a = some out
            ∧ out.take f.KBlank.size = outL.take fL.length ++ outR.take fR.KBlank.size
            ∧ out.drop f.KBlank.size = a.drop f.KBlank.size) := by
  have hLR : (FormExpr.plus L R).valid := ⟨hL, hR⟩
  obtain ⟨fL, hfL, hsL, _, hrunL⟩ := L.form_spec hL
  obtain ⟨fR, hfR, hsR, _, hrunR⟩ := R.form_spec hR
  obtain ⟨f, hf, hs, _, hrun⟩ := (FormExpr.plus L R).form_spec hLR
  have hlen : f.length = fL.length + fR.length := by
    have := FormExpr.length_plus L R hLR
    rwa [FormExpr.length_eq hf, FormExpr.length_eq hfL, FormExpr.length_eq hfR] at this
  have hplus := FormExpr.rendered_plus L R hL hR fL fR f hfL hfR hf
  have hLtake : (fL.KBlank.data.take fL.length).length = fL.length := by
    simp [Form.length, StringLiteral.size, StringLiteral.data]
  have hRtake : (fR.KBlank.data.take fR.length).length = fR.length := by
    simp [Form.length, StringLiteral.size, StringLiteral.data]
  have hftake : (f.KBlank.data.take f.length).length = f.length := by
    simp [Form.length, StringLiteral.size, StringLiteral.data]
  have hLfill := (hrunL _ [] hLtake).1
  have hRfill := (hrunR _ [] hRtake).1
  have hffill := (hrun _ [] hftake).1
  have hdropR : (fR.KBlank.data.drop fR.length).length = 1 := by
    simp [Form.length, StringLiteral.size, StringLiteral.data]
    have : 0 < fR.KBlank._data.length := hsR
    omega
  have hdropf : (f.KBlank.data.drop f.length).length = 1 := by
    simp [Form.length, StringLiteral.size, StringLiteral.data]
    have : 0 < f.KBlank._data.length := hs
    omega
  refine ⟨fL, fR, f, hfL, hfR, hf, hlen, ?_, ?_⟩
  · intro rawL rawR raw hrawL hrawR hraw
    refine ⟨_, _, renderStatic_eq L hL fL hfL rawL hrawL,
      renderStatic_eq R hR fR hfR rawR hrawR, ?_⟩
    rw [renderStatic_eq _ hLR f hf raw hraw, hplus]
  · intro aL aR a haL haR ha
    refine ⟨_, _, _, renderTransient_eq L hL fL hfL aL haL,
      renderTransient_eq R hR fR hfR aR haR, renderTransient_eq _ hLR f hf a ha, ?_, ?_⟩
    · have e1 : ((FormExpr.plus L R).fill (f.KBlank.data.take f.length)
          ++ f.KBlank.data.drop f.length).length = f.KBlank.size := by
        rw [List.length_append, hffill, hdropf]
        simp only [Form.length]; omega
      have e2 : (R.fill (fR.KBlank.data.take fR.length)
          ++ fR.KBlank.data.drop fR.length).length = fR.KBlank.size := by
        rw [List.length_append, hRfill, hdropR]
        simp only [Form.length]; omega
      rw [List.take_left' e1, List.take_left' e2, hplus, List.append_assoc,
        List.take_left' hLfill, List.take_left' hLfill]
    · have e1 : ((FormExpr.plus L R).fill (f.KBlank.data.take f.length)
          ++ f.KBlank.data.drop f.length).length = f.KBlank.size := by
        rw [List.length_append, hffill, hdropf]
        simp only [Form.length]; omega
      rw [List.drop_left' e1]

theorem concat_render_witness :
    (FormExpr.v_bool true).valid ∧ (FormExpr.k ⟨[33, 0]⟩).valid
      ∧ ∃ fL fR f, (FormExpr.v_bool true).form = some fL
        ∧ (FormExpr.k ⟨[33, 0]⟩).form = some fR
        ∧ (FormExpr.plus (.v_bool true) (.k ⟨[33, 0]⟩)).form = some f
        ∧ f.length = fL.length + fR.length
        ∧ (∀ rawL rawR raw : List Nat, rawL.length = fL.KBlank.size →
            rawR.length = fR.KBlank.size → raw.length = f.KBlank.size →
            ∃ outL outR, renderStatic fL rawL = some outL ∧ renderStatic fR rawR = some outR
              ∧ renderStatic f raw = some (outL.take fL.length ++ outR))
        ∧ (∀ aL aR a : List Nat, fL.KBlank.size ≤ aL.length →
            fR.KBlank.size ≤ aR.length → f.KBlank.size ≤ a.length →
            ∃ outL outR out, renderTransient fL aL = some outL
              ∧ renderTransient fR aR = some outR ∧ renderTransient f a = some out
              ∧ out.take f.KBlank.size = outL.take fL.length ++ outR.take fR.KBlank.size
              ∧ out.drop f.KBlank.size = a.drop f.KBlank.size) :=
  ⟨by decide, by decide, concat_render (.v_bool true) (.k ⟨[33, 0]⟩) (by decide) (by decide)⟩

/-- C2: for blueprints of sizes `L` and `M` (terminators included, so both at least 1),
whichever overload of `operator+` concatenates two forms, the static text of the result
is the first `L - 1` bytes of the left text followed by all `M` bytes of the right one,
its size is `L + M - 1`, and `length()` of the result is the sum of the two lengths. -/
theorem concat_static_text (lc rc : ValueCategory) (left right f : Form)
    (hL : 0 < left.KBlank.size) (hM : 0 < right.KBlank.size)
    (h : operatorPlus lc left rc right = some f) :
    f.KBlank.data
        = left.KBlank.data.take (left.KBlank.size - 1)
          ++ right.KBlank.data.take right.KBlank.size
      ∧ f.KBlank.size = left.KBlank.size + right.KBlank.size - 1
      ∧ f.length = left.length + right.length := by
  rw [operatorPlus_KBlank h] at *
  simp only [Form.length, operatorPlus_KBlank h, StringLiteral.plus_data,
    StringLiteral.plus_size]
  refine ⟨?_, by omega, by omega⟩
  simp [StringLiteral.size, StringLiteral.data]

theorem concat_static_text_witness :
    (0 < (forms.k ⟨[97, 98, 0]⟩).KBlank.size ∧ 0 < (forms.k ⟨[99, 0]⟩).KBlank.size)
      ∧ (Form.mk ⟨[97, 98, 99, 0]⟩ .null).KBlank.data
            = (forms.k ⟨[97, 98, 0]⟩).KBlank.data.take ((forms.k ⟨[97, 98, 0]⟩).KBlank.size - 1)
              ++ (forms.k ⟨[99, 0]⟩).KBlank.data.take (forms.k ⟨[99, 0]⟩).KBlank.size
        ∧ (Form.mk ⟨[97, 98, 99, 0]⟩ .null).KBlank.size
            = (forms.k ⟨[97, 98, 0]⟩).KBlank.size + (forms.k ⟨[99, 0]⟩).KBlank.size - 1
        ∧ (Form.mk ⟨[97, 98, 99, 0]⟩ .null).length
            = (forms.k ⟨[97, 98, 0]⟩).length + (forms.k ⟨[99, 0]⟩).length :=
  ⟨⟨by decide, by decide⟩,
    concat_static_text .lvalue .lvalue (forms.k ⟨[97, 98, 0]⟩) (forms.k ⟨[99, 0]⟩)
      ⟨⟨[97, 98, 99, 0]⟩, .null⟩ (by decide) (by decide) (by decide)⟩

/-- C3: for every fixed-width integer type `T` and every value `x` of `T`, `v(x)` has a
form whose blank is `W = integer_placeholder_length<T>()` bytes wide; the decimal
representation of `x` fits in `W`; and on every view of at least `W` bytes, whatever it
holds, the filler returns and leaves the representation of `x` at the first byte,
spaces up to `W`, and the rest of the view as it was. For `uint8_t`, 7 rendered over
"255" gives "7  " and 255 rendered over "7  " gives "255". -/
theorem integer_form_fill (T : IntType) (x : Int) (hx : T.holds x) :
    (∃ W f, integer_placeholder_length T = some W ∧ forms.v_int T x = some f
      ∧ f.KBlank = placeholder W ∧ f.length = W ∧ (decimal x).length ≤ W
      ∧ ∀ chars : List Nat, W ≤ chars.length →
          f.filler.run chars
            = some (decimal x ++ List.replicate (W - (decimal x).length) 32 ++ chars.drop W))
    ∧ (forms.v_int .uint8 7).bind (fun f => f.filler.run [50, 53, 53]) = some [55, 32, 32]
    ∧ (forms.v_int .uint8 255).bind (fun f => f.filler.run [55, 32, 32]) = some [50, 53, 53] := by
  refine ⟨?_, by decide, by decide⟩
  obtain ⟨W, hW, hfit⟩ := decimal_fits T x hx
  refine ⟨W, ⟨placeholder W, .int W x⟩, hW, forms.v_int_eq T x W hW, rfl, ?_, hfit, ?_⟩
  · simp [Form.length, placeholder_size]
  · intro chars hlen
    have := run_int_append W x (chars.take W) (chars.drop W) (by simp; omega) hfit
    rwa [List.take_append_drop] at this

theorem integer_form_fill_witness :
    IntType.int8.holds (-128)
      ∧ ((∃ W f, integer_placeholder_length .int8 = some W ∧ forms.v_int .int8 (-128) = some f
          ∧ f.KBlank = placeholder W ∧ f.length = W ∧ (decimal (-128)).length ≤ W
          ∧ ∀ chars : List Nat, W ≤ chars.length →
              f.filler.run chars
                = some (decimal (-128) ++ List.replicate (W - (decimal (-128)).length) 32
                    ++ chars.drop W))
        ∧ (forms.v_int .uint8 7).bind (fun f => f.filler.run [50, 53, 53]) = some [55, 32, 32]
        ∧ (forms.v_int .uint8 255).bind (fun f => f.filler.run [55, 32, 32])
            = some [50, 53, 53]) :=
  ⟨by decide, integer_form_fill .int8 (-128) (by decide)⟩

/-- C4, as the code has it: `write_to` of the pure-literal form `k<"ab">` does not call
`data<KBlank>()` and leaves a fresh buffer of four `x` as it is, where the claim has
`ab\0` at its start; and for the form `v<0>(it)`, whose static text is the terminator
alone and whose fingerprint is 0, the sentinel of a fresh buffer matches, nothing is
copied, and the first byte stays `x`. -/
theorem write_to_fresh_sentinel_buffer :
    (forms.k ⟨[97, 98, 0]⟩).write_to_SentinelBuffer (SentinelBuffer.fresh [120, 120, 120, 120])
        = some (SentinelBuffer.fresh [120, 120, 120, 120])
      ∧ (forms.k ⟨[97, 98, 0]⟩).KBlank.data = [97, 98, 0]
      ∧ (forms.v_text 0 []).write_to_SentinelBuffer (SentinelBuffer.fresh [120, 120])
          = some (SentinelBuffer.fresh [120, 120])
      ∧ (forms.v_text 0 []).KBlank.data = [0] := by
  decide

/-- C5, as the code has it: `data<B>()` for `B = "ab"` on a fresh buffer copies the
three bytes of the static text and leaves `sentinel` at 0, which is not the fingerprint
116838179 of `B`; the next access bound to `B` finds no match either. -/
theorem sentinel_not_updated :
    SentinelBuffer.data ⟨[97, 98, 0]⟩ (SentinelBuffer.fresh [120, 120, 120, 120])
        = some ⟨0, [97, 98, 0, 120]⟩
      ∧ (StringLiteral.mk [97, 98, 0]).hash = 116838179
      ∧ (SentinelBuffer.mk 0 [97, 98, 0, 120]).sentinel ≠ (StringLiteral.mk [97, 98, 0]).hash
      ∧ SentinelBuffer.data ⟨[97, 98, 0]⟩ ⟨0, [97, 98, 7, 120]⟩
          = some ⟨0, [97, 98, 0, 120]⟩ := by
  decide

/-- C6: for two expressions that differ in their dynamic values only (the same
blueprint with two sets of values), rendering the first and then the second into the
same Persistent-fingerprinted buffer, in whatever state it is, leaves every byte of the
storage outside the blank regions as it was after the first render, and every byte of a
blank region as a render of the second expression into any other buffer leaves it. -/
theorem persistent_second_render (e1 e2 : FormExpr) (hs : e1.sameShape e2 = true)
    (hv1 : e1.valid) (hv2 : e2.valid) (s0 : SentinelBuffer) :
    ∃ f1 f2, e1.form = some f1 ∧ e2.form = some f2 ∧ f1.KBlank = f2.KBlank
      ∧ (f1.KBlank.size ≤ s0._data.length →
          ∃ s1 s2, f1.write_to_SentinelBuffer s0 = some s1
            ∧ f2.write_to_SentinelBuffer s1 = some s2
            ∧ (∀ i, e2.blank i = false → s2._data[i]? = s1._data[i]?)
            ∧ (∀ t0 : SentinelBuffer, f2.KBlank.size ≤ t0._data.length →
                ∃ t, f2.write_to_SentinelBuffer t0 = some t
                  ∧ ∀ i, e2.blank i = true → s2._data[i]? = t._data[i]?)) := by
  obtain ⟨f1, hf1, hsz1, _, _⟩ := e1.form_spec hv1
  obtain ⟨f2, hf2, hsz2, _, _⟩ := e2.form_spec hv2
  obtain ⟨hK, hN, _, hB⟩ := e1.sameShape_spec e2 hs hv1 hv2 f1 f2 hf1 hf2
  refine ⟨f1, f2, hf1, hf2, hK, fun hfit => ?_⟩
  have hlen : f1.length = f2.length := by simp only [Form.length, hK]
  have hfit2 : f2.KBlank.size ≤ s0._data.length := hK ▸ hfit
  have hb0 : (sentinelBase f1 s0).length = s0._data.length := sentinelBase_length f1 s0 hfit
  have hle0 : f1.length ≤ (sentinelBase f1 s0).length := by
    rw [hb0]; simp only [Form.length]; omega
  have hfill1 : (e1.fill ((sentinelBase f1 s0).take f1.length)).length = f1.length := by
    have := e1.fill_length hv1 ((sentinelBase f1 s0).take f1.length)
      (by rw [FormExpr.length_eq hf1]; simp; omega)
    rwa [FormExpr.length_eq hf1] at this
  have hw1 := write_to_SentinelBuffer_eq e1 hv1 f1 hf1 s0 hfit
  generalize hD1 : e1.fill ((sentinelBase f1 s0).take f1.length)
      ++ (sentinelBase f1 s0).drop f1.length = D1 at hw1
  have hD1len : D1.length = s0._data.length := by
    rw [← hD1, List.length_append, hfill1, List.length_drop]; omega
  have hfit1 : f2.KBlank.size ≤ (SentinelBuffer.mk s0.sentinel D1)._data.length := by
    show f2.KBlank.size ≤ D1.length
    omega
  have hw2 := write_to_SentinelBuffer_eq e2 hv2 f2 hf2 ⟨s0.sentinel, D1⟩ hfit1
  have hb1 : (sentinelBase f2 ⟨s0.sentinel, D1⟩).length = D1.length :=
    sentinelBase_length f2 _ hfit1
  have hle1 : f2.length ≤ (sentinelBase f2 ⟨s0.sentinel, D1⟩).length := by
    rw [hb1]; simp only [Form.length]; omega
  refine ⟨_, _, hw1, hw2, ?_, ?_⟩
  · intro i hb
    show (e2.fill ((sentinelBase f2 ⟨s0.sentinel, D1⟩).take f2.length)
      ++ (sentinelBase f2 ⟨s0.sentinel, D1⟩).drop f2.length)[i]? = D1[i]?
    rw [e2.view_frame hv2 f2 hf2 _ hle1 i hb]
    by_cases hc : f2.filler.isNull = true ∨ s0.sentinel = f2.KBlank.hash
    · simp [sentinelBase, hc]
    · have hc1 : ¬ (f1.filler.isNull = true ∨ s0.sentinel = f1.KBlank.hash) := by
        rw [hN, hK]; exact hc
      have e0 : sentinelBase f1 s0 = f1.KBlank.data ++ s0._data.drop f1.KBlank.size := by
        simp only [sentinelBase, if_neg hc1]
      have e1' : sentinelBase f2 ⟨s0.sentinel, D1⟩
          = f2.KBlank.data ++ D1.drop f2.KBlank.size := by
        simp only [sentinelBase, if_neg hc]
      have hdl : f2.KBlank.data.length = f2.KBlank.size := rfl
      rw [e1']
      by_cases hi : i < f2.KBlank.size
      · rw [List.getElem?_append_left (by omega), ← hD1,
          e1.view_frame hv1 f1 hf1 _ hle0 i (by rw [hB]; exact hb), e0, hK,
          List.getElem?_append_left (by omega)]
      · rw [List.getElem?_append_right (by omega), hdl, List.getElem?_drop]
        congr 1
        omega
  · intro t0 ht0
    have hbt : (sentinelBase f2 t0).length = t0._data.length := sentinelBase_length f2 t0 ht0
    refine ⟨_, write_to_SentinelBuffer_eq e2 hv2 f2 hf2 t0 ht0, fun i hb => ?_⟩
    exact e2.view_blank hv2 f2 hf2 _ _ hle1
      (by rw [hbt]; simp only [Form.length]; omega) i hb

theorem persistent_second_render_witness :
    (FormExpr.sameShape (.plus (.v_int .uint8 255) (.k ⟨[33, 0]⟩))
        (.plus (.v_int .uint8 7) (.k ⟨[33, 0]⟩)) = true
      ∧ (FormExpr.plus (.v_int .uint8 255) (.k ⟨[33, 0]⟩)).valid
      ∧ (FormExpr.plus (.v_int .uint8 7) (.k ⟨[33, 0]⟩)).valid)
    ∧ ∃ f1 f2, (FormExpr.plus (.v_int .uint8 255) (.k ⟨[33, 0]⟩)).form = some f1
      ∧ (FormExpr.plus (.v_int .uint8 7) (.k ⟨[33, 0]⟩)).form = some f2
      ∧ f1.KBlank = f2.KBlank
      ∧ (f1.KBlank.size ≤ (SentinelBuffer.fresh [1, 2, 3, 4, 5, 6])._data.length →
          ∃ s1 s2, f1.write_to_SentinelBuffer (SentinelBuffer.fresh [1, 2, 3, 4, 5, 6]) = some s1
            ∧ f2.write_to_SentinelBuffer s1 = some s2
            ∧ (∀ i, (FormExpr.plus (.v_int .uint8 7) (.k ⟨[33, 0]⟩)).blank i = false →
                s2._data[i]? = s1._data[i]?)
            ∧ (∀ t0 : SentinelBuffer, f2.KBlank.size ≤ t0._data.length →
                ∃ t, f2.write_to_SentinelBuffer t0 = some t
                  ∧ ∀ i, (FormExpr.plus (.v_int .uint8 7) (.k ⟨[33, 0]⟩)).blank i = true →
                      s2._data[i]? = t._data[i]?)) :=
  ⟨⟨by decide, by decide, by decide⟩,
    persistent_second_render (.plus (.v_int .uint8 255) (.k ⟨[33, 0]⟩))
      (.plus (.v_int .uint8 7) (.k ⟨[33, 0]⟩)) (by decide) (by decide) (by decide)
      (SentinelBuffer.fresh [1, 2, 3, 4, 5, 6])⟩

/-- C7, as the code has it: a Transient buffer for "abcd" and then one for "z" over an
array of five `x` leave `z\0cd\0`; the buffer for "z" alone leaves `z\0xxx`. -/
theorem transient_residue :
    (BlankBuffer ⟨[97, 98, 99, 100, 0]⟩ [120, 120, 120, 120, 120]).bind
        (BlankBuffer ⟨[122, 0]⟩) = some [122, 0, 99, 100, 0]
      ∧ BlankBuffer ⟨[122, 0]⟩ [120, 120, 120, 120, 120] = some [122, 0, 120, 120, 120]
      ∧ (BlankBuffer ⟨[97, 98, 99, 100, 0]⟩ [120, 120, 120, 120, 120]).bind
          (BlankBuffer ⟨[122, 0]⟩) ≠ BlankBuffer ⟨[122, 0]⟩ [120, 120, 120, 120, 120] := by
  decide

/-- C7, amended: for blueprints `B1`, `B2` that fit the array, after a Transient buffer
for `B1` and then one for `B2` the first `size(B2)` bytes are the static text of `B2`,
whatever `B1` was, and every byte from `size(B1)` on is as after a construction for `B2`
alone; so the storage is that of `B2` alone whenever `size(B1) ≤ size(B2)`. -/
theorem transient_twice (a : List Nat) (B1 B2 : StringLiteral)
    (h1 : B1.size ≤ a.length) (h2 : B2.size ≤ a.length) :
    ∃ s1 s2 t, BlankBuffer B1 a = some s1 ∧ BlankBuffer B2 s1 = some s2
      ∧ BlankBuffer B2 a = some t
      ∧ s2.take B2.size = B2.data ∧ t.take B2.size = B2.data
      ∧ s2.drop (max B1.size B2.size) = t.drop (max B1.size B2.size)
      ∧ (B1.size ≤ B2.size → s2 = t) := by
  have hd1 : B1.data.length = B1.size := rfl
  have hd2 : B2.data.length = B2.size := rfl
  have hs1 : (B1.data ++ a.drop B1.size).length = a.length := by
    rw [List.length_append, List.length_drop, hd1]; omega
  have hdrop : ∀ n, B1.size ≤ n → (B1.data ++ a.drop B1.size).drop n = a.drop n := by
    intro n hn
    rw [List.drop_append_eq_append_drop, List.drop_of_length_le (by omega), List.nil_append,
      List.drop_drop, hd1]
    congr 1
    omega
  refine ⟨_, _, _, BlankBuffer_eq B1 a h1, BlankBuffer_eq B2 _ (by omega),
    BlankBuffer_eq B2 a h2, List.take_left' hd2, List.take_left' hd2, ?_, ?_⟩
  · have hm1 : B1.size ≤ max B1.size B2.size := le_max_left _ _
    have hm2 : B2.size ≤ max B1.size B2.size := le_max_right _ _
    generalize max B1.size B2.size = m at hm1 hm2
    have key : ∀ Y : List Nat, (B2.data ++ Y.drop B2.size).drop m = Y.drop m := by
      intro Y
      rw [List.drop_append_eq_append_drop, List.drop_of_length_le (by omega),
        List.nil_append, List.drop_drop, hd2]
      congr 1
      omega
    rw [key, key, hdrop m hm1]
  · intro hle
    rw [hdrop _ hle]

theorem transient_twice_witness :
    ((StringLiteral.mk [122, 0]).size ≤ [120, 120, 120, 120].length
      ∧ (StringLiteral.mk [97, 98, 0]).size ≤ [120, 120, 120, 120].length)
    ∧ ∃ s1 s2 t, BlankBuffer ⟨[122, 0]⟩ [120, 120, 120, 120] = some s1
      ∧ BlankBuffer ⟨[97, 98, 0]⟩ s1 = some s2
      ∧ BlankBuffer ⟨[97, 98, 0]⟩ [120, 120, 120, 120] = some t
      ∧ s2.take (StringLiteral.mk [97, 98, 0]).size = (StringLiteral.mk [97, 98, 0]).data
      ∧ t.take (StringLiteral.mk [97, 98, 0]).size = (StringLiteral.mk [97, 98, 0]).data
      ∧ s2.drop (max (StringLiteral.mk [122, 0]).size (StringLiteral.mk [97, 98, 0]).size)
          = t.drop (max (StringLiteral.mk [122, 0]).size (StringLiteral.mk [97, 98, 0]).size)
      ∧ ((StringLiteral.mk [122, 0]).size ≤ (StringLiteral.mk [97, 98, 0]).size → s2 = t) :=
  ⟨⟨by decide, by decide⟩,
    transient_twice [120, 120, 120, 120] ⟨[122, 0]⟩ ⟨[97, 98, 0]⟩ (by decide) (by decide)⟩

/-- C8: for an expression built from `k`, `ku`, `ki`, `v`, `+` and a buffer of at least
`size()` bytes, the (guarded) call of the composed filler returns, keeps the length of
the buffer, and changes no byte outside the blank regions; the blank regions lie below
`length()`, so every literal byte, the terminator at index `length()` and every byte
after it keep their value. -/
theorem filler_frame (e : FormExpr) (hv : e.valid) (chars : List Nat) :
    ∃ f, e.form = some f
      ∧ (f.KBlank.size ≤ chars.length →
          ∃ out, f.filler.invoke chars = some out ∧ out.length = chars.length
            ∧ (∀ i, e.blank i = false → out[i]? = chars[i]?)
            ∧ (∀ i, e.blank i = true → i < f.length)
            ∧ out[f.length]? = chars[f.length]?
            ∧ out.drop f.length = chars.drop f.length) := by
  obtain ⟨f, hf, hs, _, hrun⟩ := e.form_spec hv
  refine ⟨f, hf, fun hfit => ?_⟩
  have hle : f.length ≤ chars.length := by simp only [Form.length]; omega
  have htake : (chars.take f.length).length = f.length := by simp; omega
  have hfill := (hrun _ [] htake).1
  have hblank : ∀ i, e.blank i = true → i < f.length := fun i hb => by
    have := e.blank_lt hv i hb
    rwa [FormExpr.length_eq hf] at this
  have hframe : ∀ i, e.blank i = false →
      (e.fill (chars.take f.length) ++ chars.drop f.length)[i]? = chars[i]? := by
    intro i hb
    by_cases hi : i < f.length
    · rw [List.getElem?_append_left (by omega),
        e.fill_frame hv _ (by rw [FormExpr.length_eq hf]; exact htake) i hb,
        List.getElem?_take_of_lt hi]
    · rw [List.getElem?_append_right (by omega), hfill, List.getElem?_drop]
      congr 1
      omega
  refine ⟨_, e.invoke_eq hv f hf chars hle, ?_, hframe, hblank, ?_, ?_⟩
  · rw [List.length_append, hfill, List.length_drop]; omega
  · apply hframe
    by_contra hb
    have := hblank f.length (by simpa using hb)
    omega
  · rw [List.drop_left' hfill]

theorem filler_frame_witness :
    (FormExpr.plus (.v_bool true) (.k ⟨[33, 0]⟩)).valid
      ∧ ∃ f, (FormExpr.plus (.v_bool true) (.k ⟨[33, 0]⟩)).form = some f
        ∧ (f.KBlank.size ≤ [1, 2, 3, 4, 5, 6, 7, 8].length →
            ∃ out, f.filler.invoke [1, 2, 3, 4, 5, 6, 7, 8] = some out
              ∧ out.length = [1, 2, 3, 4, 5, 6, 7, 8].length
              ∧ (∀ i, (FormExpr.plus (.v_bool true) (.k ⟨[33, 0]⟩)).blank i = false →
                  out[i]? = [1, 2, 3, 4, 5, 6, 7, 8][i]?)
              ∧ (∀ i, (FormExpr.plus (.v_bool true) (.k ⟨[33, 0]⟩)).blank i = true →
                  i < f.length)
              ∧ out[f.length]? = [1, 2, 3, 4, 5, 6, 7, 8][f.length]?
              ∧ out.drop f.length = [1, 2, 3, 4, 5, 6, 7, 8].drop f.length) :=
  ⟨by decide, filler_frame (.plus (.v_bool true) (.k ⟨[33, 0]⟩)) (by decide) [1, 2, 3, 4, 5, 6, 7, 8]⟩

/-- C9: for blueprints `A`, `B`, `C` (each an array of at least one byte, which is all that
is used of `B`), `(A + B) + C` and `A + (B + C)` have the same size and the same bytes. -/
theorem concat_assoc (A B C : StringLiteral) (hB : 0 < B.size) :
    ((A.plus B).plus C).size = (A.plus (B.plus C)).size
      ∧ ((A.plus B).plus C).data = (A.plus (B.plus C)).data := by
  have hd : ((A.plus B).plus C).data = (A.plus (B.plus C)).data := by
    simp only [StringLiteral.plus_data, StringLiteral.plus_size]
    have h1 : (List.take (A.size - 1) A.data).length = A.size - 1 := by
      simp [StringLiteral.size, StringLiteral.data]
    rw [List.take_append_eq_append_take, h1, List.append_assoc]
    congr 1
    · rw [List.take_of_length_le (by omega)]
    · congr 1
      congr 1
      omega
  refine ⟨?_, hd⟩
  simp only [StringLiteral.size]
  exact congrArg List.length hd

theorem concat_assoc_witness :
    0 < (StringLiteral.mk [98, 0]).size
      ∧ ((StringLiteral.plus ⟨[97, 0]⟩ ⟨[98, 0]⟩).plus ⟨[99, 0]⟩).size
          = (StringLiteral.plus ⟨[97, 0]⟩ (StringLiteral.plus ⟨[98, 0]⟩ ⟨[99, 0]⟩)).size
      ∧ ((StringLiteral.plus ⟨[97, 0]⟩ ⟨[98, 0]⟩).plus ⟨[99, 0]⟩).data
          = (StringLiteral.plus ⟨[97, 0]⟩ (StringLiteral.plus ⟨[98, 0]⟩ ⟨[99, 0]⟩)).data :=
  ⟨by decide, concat_assoc ⟨[97, 0]⟩ ⟨[98, 0]⟩ ⟨[99, 0]⟩ (by decide)⟩

/-- C10, as the code has it: `integer_placeholder_length<int64_t>()` is 21, not the 19
digits of the maximum plus 1. -/
theorem integer_placeholder_length_int64 :
    integer_placeholder_length .int64 = some 21
      ∧ digitCount IntType.int64.max + (if IntType.int64.is_signed then 1 else 0) = 20
      ∧ integer_placeholder_length .int64
          ≠ some (digitCount IntType.int64.max + (if IntType.int64.is_signed then 1 else 0)) := by
  decide

/-- C10, amended: for every fixed-width integer type `T` other than `int64_t`,
`integer_placeholder_length<T>()` is the number of decimal digits of the maximum of `T`
plus 1 if `T` is signed; for `int64_t` it is 21; it is never less than digits plus sign. -/
theorem integer_placeholder_length_eq (T : IntType) :
    integer_placeholder_length T
        = some (if T = .int64 then 21
            else digitCount T.max + (if T.is_signed then 1 else 0))
      ∧ ∃ W, integer_placeholder_length T = some W
          ∧ digitCount T.max + (if T.is_signed then 1 else 0) ≤ W := by
  have h : integer_placeholder_length T
      = some (if T = .int64 then 21
          else digitCount T.max + (if T.is_signed then 1 else 0)) := by
    cases T <;> decide
  refine ⟨h, _, h, ?_⟩
  cases T <;> decide

/-- C11, as the code has it: for `N = 1844674407370955161` (the quotient of `SIZE_MAX` by
10) `naive_digits10` returns 20 for the 19 digits, so the static text of
`unsigned_literal<N>()` is the 19 digits followed by two NUL bytes and `length()` of
`ku<N>` is 20. -/
theorem unsigned_literal_padded :
    unsigned_literal 1844674407370955161
        = some ⟨decimal 1844674407370955161 ++ [0, 0]⟩
      ∧ digitCount 1844674407370955161 = 19
      ∧ (forms.ku 1844674407370955161).map Form.length = some 20
      ∧ unsigned_literal 1844674407370955161
          ≠ some ⟨decimal 1844674407370955161 ++ [0]⟩ := by
  decide

/-- C12, as the code has it: the static text of `signed_literal<5>()` is `5`, a space and
the terminator, not `5` and the terminator. -/
theorem signed_literal_padded :
    signed_literal 5 = some ⟨[53, 32, 0]⟩
      ∧ decimal 5 = [53]
      ∧ signed_literal 5 ≠ some ⟨decimal 5 ++ [0]⟩ := by
  decide

/-- C12, amended: for every constant `N` with `0 ≤ N < SIZE_MAX / 10` the static text of
`signed_literal<N>()`, and of `ki<N>`, is the decimal digits of `N`, one space (the
slot kept for a sign) and the terminator. -/
theorem signed_literal_nonneg (N : Int) (h0 : 0 ≤ N) (h1 : N < (SIZE_MAX / 10 : Nat)) :
    signed_literal N = some ⟨decimal N ++ [32, 0]⟩
      ∧ forms.ki N = some ⟨⟨decimal N ++ [32, 0]⟩, .null⟩ := by
  have hmax : SIZE_MAX / 10 = 1844674407370955161 := by decide
  rw [hmax] at h1
  have hval : ssizeToSize N = N.toNat := by
    unfold ssizeToSize; congr 1; omega
  have hcast : ((N.toNat : Nat) : Int) = N := Int.toNat_of_nonneg h0
  have hlen : (decimal N).length = digitCount N.toNat := by
    have := decimal_natCast N.toNat
    rwa [hcast] at this
  obtain ⟨d, hd, _, h⟩ := signed_literal_eq N (by omega) (by omega)
  have hd' : d = digitCount N.toNat := by
    rw [hval, naive_digits10_exact _ (by rw [hmax]; omega)] at hd
    exact (Option.some.inj hd).symm
  have hs : signed_literal N = some ⟨decimal N ++ [32, 0]⟩ := by
    rw [h, hlen, ← hd', drop_set_replicate]
    simp
  exact ⟨hs, by simp [forms.ki, hs]⟩

theorem signed_literal_nonneg_witness :
    ((0 : Int) ≤ 42 ∧ (42 : Int) < (SIZE_MAX / 10 : Nat))
      ∧ signed_literal 42 = some ⟨decimal 42 ++ [32, 0]⟩
      ∧ forms.ki 42 = some ⟨⟨decimal 42 ++ [32, 0]⟩, .null⟩ :=
  ⟨⟨by decide, by decide⟩, signed_literal_nonneg 42 (by decide) (by decide)⟩

/-- C13: for every `bool` value the form `v(value)` has a blank of 5 bytes, and on every
view of at least 5 bytes, whatever it holds, its filler returns and leaves ` true`
(a space, then `true`) or `false` in the first 5 bytes and the rest of the view as it
was; a render through a Static-once buffer gives these 5 bytes and the terminator. -/
theorem boolean_form_fill (value : Bool) (chars raw : List Nat) (hc : 5 ≤ chars.length)
    (hr : raw.length = 6) :
    (forms.v_bool value).KBlank = placeholder 5 ∧ (forms.v_bool value).length = 5
      ∧ (forms.v_bool value).filler.run chars
          = some ((if value then [32, 116, 114, 117, 101] else [102, 97, 108, 115, 101])
              ++ chars.drop 5)
      ∧ renderStatic (forms.v_bool value) raw
          = some ((if value then [32, 116, 114, 117, 101] else [102, 97, 108, 115, 101])
              ++ [0]) := by
  have hlen : (forms.v_bool value).length = 5 := by
    simp [forms.v_bool, forms.k, Form.with_filler, Form.length, placeholder_size]
  refine ⟨rfl, hlen, ?_, ?_⟩
  · have := run_bool_append value (chars.take 5) (chars.drop 5) (by simp; omega)
    rwa [List.take_append_drop] at this
  · have hsize : raw.length = (forms.v_bool value).KBlank.size := by
      rw [hr]; simp [forms.v_bool, forms.k, Form.with_filler, placeholder_size]
    rw [renderStatic_eq (.v_bool value) trivial (forms.v_bool value) rfl raw hsize, hlen]
    have hdata : (forms.v_bool value).KBlank.data = List.replicate 5 32 ++ [0] :=
      placeholder_data 5
    rw [hdata]
    cases value <;> rfl

theorem boolean_form_fill_witness :
    (5 ≤ [1, 2, 3, 4, 5, 6, 7].length ∧ [9, 9, 9, 9, 9, 9].length = 6)
      ∧ (forms.v_bool true).KBlank = placeholder 5 ∧ (forms.v_bool true).length = 5
      ∧ (forms.v_bool true).filler.run [1, 2, 3, 4, 5, 6, 7]
          = some ((if true then [32, 116, 114, 117, 101] else [102, 97, 108, 115, 101])
              ++ [1, 2, 3, 4, 5, 6, 7].drop 5)
      ∧ renderStatic (forms.v_bool true) [9, 9, 9, 9, 9, 9]
          = some ((if true then [32, 116, 114, 117, 101] else [102, 97, 108, 115, 101])
              ++ [0]) :=
  ⟨⟨by decide, by decide⟩,
    boolean_form_fill true [1, 2, 3, 4, 5, 6, 7] [9, 9, 9, 9, 9, 9] (by decide) (by decide)⟩

/-- C14: for every expression built from literals and numerals only, a Static-once buffer
for its blueprint holds exactly the static text, terminator included, after
construction, and `write_to` returns and leaves it so; `write_to` of any form with
the no-op filler leaves any buffer as it is; and `ku<3> + k<" bottles">` rendered
through a Static-once buffer gives the 10 bytes `3 bottles\0`. -/
theorem static_once_pure_literal (e : FormExpr) (hv : e.valid) (hp : e.pureLiteral = true)
    (raw : List Nat) :
    (∃ f, e.form = some f
      ∧ (raw.length = f.KBlank.size →
          ConstInitBlankBuffer f.KBlank raw = some f.KBlank.data
            ∧ f.write_to_ConstInitBuffer f.KBlank.data = some f.KBlank.data
            ∧ renderStatic f raw = some f.KBlank.data))
    ∧ (∀ g : Form, g.filler.isNull = true →
        ∀ buf, g.write_to_ConstInitBuffer buf = some buf)
    ∧ (FormExpr.plus (.ku 3) (.k ⟨[32, 98, 111, 116, 116, 108, 101, 115, 0]⟩)).form.bind
          (fun f => renderStatic f (List.replicate 10 120))
        = some [51, 32, 98, 111, 116, 116, 108, 101, 115, 0] := by
  refine ⟨?_, ?_, by decide⟩
  · obtain ⟨f, hf, hs, _, _⟩ := e.form_spec hv
    refine ⟨f, hf, fun hraw => ?_⟩
    have hlen : f.length ≤ f.KBlank.data.length := by
      simp [Form.length, StringLiteral.size, StringLiteral.data]
    have hw : f.write_to_ConstInitBuffer f.KBlank.data = some f.KBlank.data := by
      rw [Form.write_to_ConstInitBuffer_eq, e.invoke_eq hv f hf _ hlen,
        e.fill_pureLiteral hp, List.take_append_drop]
    refine ⟨ConstInitBlankBuffer_eq _ _ hraw, hw, ?_⟩
    simp only [renderStatic, ConstInitBlankBuffer_eq _ _ hraw, Option.bind_eq_bind,
      Option.some_bind, hw]
  · intro g hg buf
    simp [Form.write_to_ConstInitBuffer, hg]

theorem static_once_pure_literal_witness :
    ((FormExpr.plus (.ku 3) (.k ⟨[32, 98, 0]⟩)).valid
      ∧ (FormExpr.plus (.ku 3) (.k ⟨[32, 98, 0]⟩)).pureLiteral = true)
    ∧ (∃ f, (FormExpr.plus (.ku 3) (.k ⟨[32, 98, 0]⟩)).form = some f
      ∧ ([7, 7, 7, 7].length = f.KBlank.size →
          ConstInitBlankBuffer f.KBlank [7, 7, 7, 7] = some f.KBlank.data
            ∧ f.write_to_ConstInitBuffer f.KBlank.data = some f.KBlank.data
            ∧ renderStatic f [7, 7, 7, 7] = some f.KBlank.data))
    ∧ (∀ g : Form, g.filler.isNull = true →
        ∀ buf, g.write_to_ConstInitBuffer buf = some buf)
    ∧ (FormExpr.plus (.ku 3) (.k ⟨[32, 98, 111, 116, 116, 108, 101, 115, 0]⟩)).form.bind
          (fun f => renderStatic f (List.replicate 10 120))
        = some [51, 32, 98, 111, 116, 116, 108, 101, 115, 0] :=
  ⟨⟨by decide, by decide⟩,
    static_once_pure_literal (.plus (.ku 3) (.k ⟨[32, 98, 0]⟩)) (by decide) (by decide)
      [7, 7, 7, 7]⟩

/-- C15: for every expression built from literals, numerals, value adapters and `+`,
`length()` of its form is the sum of the literal lengths and blank widths of its
leaves; a render through a Static-once buffer is `length() + 1` bytes long; a render
through a Transient buffer leaves every byte from index `length() + 1` on as it was and
makes the first `length() + 1` bytes the same whatever the array held. -/
theorem length_roundtrip (e : FormExpr) (hv : e.valid) :
    ∃ f, e.form = some f ∧ f.length = e.leafSum
      ∧ (∀ raw : List Nat, raw.length = f.KBlank.size →
          ∃ out, renderStatic f raw = some out ∧ f.length = out.length - 1
            ∧ out.length = f.length + 1)
      ∧ (∀ a : List Nat, f.KBlank.size ≤ a.length →
          ∃ out, renderTransient f a = some out ∧ out.length = a.length
            ∧ out.drop (f.length + 1) = a.drop (f.length + 1)
            ∧ ∀ a' : List Nat, f.KBlank.size ≤ a'.length →
                ∃ out', renderTransient f a' = some out'
                  ∧ out'.take (f.length + 1) = out.take (f.length + 1)) := by
  obtain ⟨f, hf, hs, _, hrun⟩ := e.form_spec hv
  have hsum : f.length = e.leafSum := by
    rw [← FormExpr.length_eq hf]; exact e.length_eq_leafSum hv
  have hsize : f.KBlank.size = f.length + 1 := by simp only [Form.length]; omega
  have htake : (f.KBlank.data.take f.length).length = f.length := by
    simp [Form.length, StringLiteral.size, StringLiteral.data]
  have hfill := (hrun _ [] htake).1
  have hdrop : (f.KBlank.data.drop f.length).length = 1 := by
    have : f.KBlank.data.length = f.KBlank.size := rfl
    rw [List.length_drop, this]; omega
  have hout : (e.fill (f.KBlank.data.take f.length) ++ f.KBlank.data.drop f.length).length
      = f.length + 1 := by
    rw [List.length_append, hfill, hdrop]
  refine ⟨f, hf, hsum, ?_, ?_⟩
  · intro raw hraw
    exact ⟨_, renderStatic_eq e hv f hf raw hraw, by rw [hout]; rfl, hout⟩
  · intro a ha
    refine ⟨_, renderTransient_eq e hv f hf a ha, ?_, ?_, ?_⟩
    · rw [List.length_append, hout, List.length_drop]; omega
    · rw [List.drop_left' hout, hsize]
    · intro a' ha'
      refine ⟨_, renderTransient_eq e hv f hf a' ha', ?_⟩
      rw [List.take_left' hout, List.take_left' hout]

theorem length_roundtrip_witness :
    (FormExpr.plus (.v_bool true) (.k ⟨[33, 0]⟩)).valid
      ∧ ∃ f, (FormExpr.plus (.v_bool true) (.k ⟨[33, 0]⟩)).form = some f
        ∧ f.length = (FormExpr.plus (.v_bool true) (.k ⟨[33, 0]⟩)).leafSum
        ∧ (∀ raw : List Nat, raw.length = f.KBlank.size →
            ∃ out, renderStatic f raw = some out ∧ f.length = out.length - 1
              ∧ out.length = f.length + 1)
        ∧ (∀ a : List Nat, f.KBlank.size ≤ a.length →
            ∃ out, renderTransient f a = some out ∧ out.length = a.length
              ∧ out.drop (f.length + 1) = a.drop (f.length + 1)
              ∧ ∀ a' : List Nat, f.KBlank.size ≤ a'.length →
                  ∃ out', renderTransient f a' = some out'
                    ∧ out'.take (f.length + 1) = out.take (f.length + 1)) :=
  ⟨by decide, length_roundtrip (.plus (.v_bool true) (.k ⟨[33, 0]⟩)) (by decide)⟩

/-- C16: for every width `W`, every source that yields at least `W` bytes and every view
of at least `W` bytes, whatever it holds, the form `v<W>(source)` has a blank of `W`
bytes and its filler returns and leaves the first `W` bytes of the source, in order, in
the first `W` bytes of the view and the rest of the view as it was. -/
theorem text_form_fill (W : Nat) (source chars : List Nat) (hs : W ≤ source.length)
    (hc : W ≤ chars.length) :
    (forms.v_text W source).KBlank = placeholder W ∧ (forms.v_text W source).length = W
      ∧ ∃ out, (forms.v_text W source).filler.run chars = some out
          ∧ out = source.take W ++ chars.drop W
          ∧ out.take W = source.take W ∧ out.drop W = chars.drop W
          ∧ out.length = chars.length := by
  have hlen : (forms.v_text W source).length = W := by
    simp [forms.v_text, forms.k, Form.with_filler, Form.length, placeholder_size]
  have hrun := run_text_append W source (chars.take W) (chars.drop W) (by simp; omega) hs
  rw [List.take_append_drop] at hrun
  have htl : (source.take W).length = W := by simp; omega
  refine ⟨rfl, hlen, _, hrun, rfl, List.take_left' htl, List.drop_left' htl, ?_⟩
  rw [List.length_append, htl, List.length_drop]; omega

theorem text_form_fill_witness :
    (2 ≤ [104, 105, 33].length ∧ 2 ≤ [1, 2, 3, 4].length)
      ∧ (forms.v_text 2 [104, 105, 33]).KBlank = placeholder 2
      ∧ (forms.v_text 2 [104, 105, 33]).length = 2
      ∧ ∃ out, (forms.v_text 2 [104, 105, 33]).filler.run [1, 2, 3, 4] = some out
          ∧ out = [104, 105, 33].take 2 ++ [1, 2, 3, 4].drop 2
          ∧ out.take 2 = [104, 105, 33].take 2 ∧ out.drop 2 = [1, 2, 3, 4].drop 2
          ∧ out.length = [1, 2, 3, 4].length :=
  ⟨⟨by decide, by decide⟩, text_form_fill 2 [104, 105, 33] [1, 2, 3, 4] (by decide) (by decide)⟩

/-- C17: on every buffer, each specialised overload of `operator+` yields a filler with
the effect of the dispatcher of the specification: the left filler verbatim when the
right filler is the no-op filler, the right filler behind an offset shift when the left
one is, the no-op filler when both are; the general overload has that effect too. -/
theorem elision_refines (left right : Form) (chars : List Nat) :
    (right.filler.isNull = true →
        (left.plus_nullRight right).filler = left.filler
          ∧ (left.plus_nullRight right).filler.invoke chars = specDispatcher left right chars)
      ∧ (left.filler.isNull = true →
          (left.plus_nullLeft right).filler = .offset left.length right.filler
            ∧ (left.plus_nullLeft right).filler.invoke chars
                = specDispatcher left right chars)
      ∧ (left.filler.isNull = true → right.filler.isNull = true →
          (left.plus_nullNull right).filler = .null
            ∧ (left.plus_nullNull right).filler.invoke chars
                = specDispatcher left right chars)
      ∧ (left.plus right).filler.invoke chars = specDispatcher left right chars := by
  refine ⟨fun hr => ⟨rfl, ?_⟩, fun hl => ⟨rfl, ?_⟩, fun hl hr => ⟨rfl, ?_⟩, ?_⟩
  · simp only [Form.plus_nullRight, specDispatcher, Filler.invoke, hr, if_true,
      Option.bind_eq_bind]
    split <;> simp
  · rw [show (left.plus_nullLeft right).filler = .offset (left.KBlank.size - 1) right.filler
        from rfl, Filler.invoke_offset]
    simp [specDispatcher, hl, Form.length]
  · simp [Form.plus_nullNull, specDispatcher, Filler.invoke, Filler.isNull_null, hl, hr]
  · rw [show (left.plus right).filler
        = .concat (left.KBlank.size - 1) left.filler right.filler from rfl,
      Filler.invoke_concat]
    simp only [specDispatcher, Filler.invoke, Form.length, Option.bind_eq_bind]
    split <;> rfl

theorem elision_refines_witness :
    ((forms.k ⟨[33, 0]⟩).filler.isNull = true ∧ (forms.k ⟨[63, 0]⟩).filler.isNull = true)
      ∧ (forms.v_bool true).plus_nullRight (forms.k ⟨[33, 0]⟩)
          = ⟨⟨[32, 32, 32, 32, 32, 33, 0]⟩, .bool true⟩
      ∧ ((forms.v_bool true).plus_nullRight (forms.k ⟨[33, 0]⟩)).filler.invoke
            [1, 2, 3, 4, 5, 6, 7]
          = specDispatcher (forms.v_bool true) (forms.k ⟨[33, 0]⟩) [1, 2, 3, 4, 5, 6, 7]
      ∧ ((forms.k ⟨[33, 0]⟩).plus_nullLeft (forms.v_bool true)).filler.invoke
            [1, 2, 3, 4, 5, 6, 7]
          = specDispatcher (forms.k ⟨[33, 0]⟩) (forms.v_bool true) [1, 2, 3, 4, 5, 6, 7]
      ∧ ((forms.k ⟨[33, 0]⟩).plus_nullNull (forms.k ⟨[63, 0]⟩)).filler.invoke [1, 2, 3]
          = specDispatcher (forms.k ⟨[33, 0]⟩) (forms.k ⟨[63, 0]⟩) [1, 2, 3] :=
  ⟨⟨by decide, by decide⟩, by decide,
    ((elision_refines (forms.v_bool true) (forms.k ⟨[33, 0]⟩) [1, 2, 3, 4, 5, 6, 7]).1
      (by decide)).2,
    ((elision_refines (forms.k ⟨[33, 0]⟩) (forms.v_bool true) [1, 2, 3, 4, 5, 6, 7]).2.1
      (by decide)).2,
    ((elision_refines (forms.k ⟨[33, 0]⟩) (forms.k ⟨[63, 0]⟩) [1, 2, 3]).2.2.1
      (by decide) (by decide)).2⟩

/-- C18, as the code has it: the fingerprint of the empty literal, the default blueprint,
is 0, the initial value of `sentinel`; the first access of a fresh buffer bound to it
finds a match and copies nothing, and the first byte stays what it was. -/
theorem empty_literal_fingerprint :
    emptyLiteral.hash = 0
      ∧ (SentinelBuffer.fresh [120, 120]).sentinel = emptyLiteral.hash
      ∧ emptyLiteral.data = [0]
      ∧ SentinelBuffer.data emptyLiteral (SentinelBuffer.fresh [120, 120])
          = some (SentinelBuffer.fresh [120, 120]) := by
  decide

/-- C18, amended: the first access of a fresh buffer bound to a blueprint `B` that fits
copies the static text of `B` to the start of the storage when the fingerprint of `B`
is not 0, and leaves the storage as it is when the fingerprint is 0. -/
theorem first_access (B : StringLiteral) (raw : List Nat) (hfit : B.size ≤ raw.length) :
    (B.hash ≠ 0 →
        SentinelBuffer.data B (SentinelBuffer.fresh raw)
          = some ⟨0, B.data ++ raw.drop B.size⟩)
      ∧ (B.hash = 0 →
          SentinelBuffer.data B (SentinelBuffer.fresh raw) = some (SentinelBuffer.fresh raw)) := by
  have hcopy : copy_n B.data B.size raw = some (B.data ++ raw.drop B.size) := by
    have : B._data.length ≤ raw.length := hfit
    simp [copy_n, StringLiteral.size, StringLiteral.data, this]
  have hfit' : B.size ≤ (SentinelBuffer.fresh raw)._data.length := hfit
  constructor
  · intro h
    have hne : (SentinelBuffer.fresh raw).sentinel ≠ B.hash := fun e => h e.symm
    simp only [SentinelBuffer.data, hfit', if_true, if_pos hne]
    show (copy_n B.data B.size raw).map _ = _
    rw [hcopy]; rfl
  · intro h
    have he : (SentinelBuffer.fresh raw).sentinel = B.hash := h.symm
    simp [SentinelBuffer.data, hfit', he]

theorem first_access_witness :
    ((StringLiteral.mk [97, 98, 0]).size ≤ [120, 120, 120, 120].length
      ∧ (StringLiteral.mk [97, 98, 0]).hash ≠ 0)
    ∧ SentinelBuffer.data ⟨[97, 98, 0]⟩ (SentinelBuffer.fresh [120, 120, 120, 120])
        = some ⟨0, (StringLiteral.mk [97, 98, 0]).data
            ++ [120, 120, 120, 120].drop (StringLiteral.mk [97, 98, 0]).size⟩ :=
  ⟨⟨by decide, by decide⟩,
    (first_access ⟨[97, 98, 0]⟩ [120, 120, 120, 120] (by decide)).1 (by decide)⟩

/-- C19: in every state of a Persistent-fingerprinted buffer of at least one byte that
can be reached from a fresh buffer by renders and accesses, the fingerprint field is
0 and the read access `data()` with its default blueprint `""` returns and leaves
every storage byte and the fingerprint field as they are. -/
theorem read_keeps_state (s : SentinelBuffer) (hr : s.Reachable) (hsize : 1 ≤ s._data.length) :
    s.sentinel = 0 ∧ SentinelBuffer.data emptyLiteral s = some s := by
  have h0 := hr.sentinel_eq
  refine ⟨h0, ?_⟩
  have hfit : emptyLiteral.size ≤ s._data.length := hsize
  have hh : s.sentinel = emptyLiteral.hash := by rw [h0]; rfl
  simp [SentinelBuffer.data, hfit, hh]

theorem read_keeps_state_witness :
    ((SentinelBuffer.mk 0 [32, 116, 114, 117, 101, 0, 7]).Reachable
      ∧ 1 ≤ (SentinelBuffer.mk 0 [32, 116, 114, 117, 101, 0, 7])._data.length)
    ∧ (SentinelBuffer.mk 0 [32, 116, 114, 117, 101, 0, 7]).sentinel = 0
    ∧ SentinelBuffer.data emptyLiteral ⟨0, [32, 116, 114, 117, 101, 0, 7]⟩
        = some ⟨0, [32, 116, 114, 117, 101, 0, 7]⟩ :=
  ⟨⟨SentinelBuffer.Reachable.render (forms.v_bool true)
      (SentinelBuffer.fresh [1, 2, 3, 4, 5, 6, 7]) _ (SentinelBuffer.Reachable.fresh _)
      (by decide), by decide⟩,
    read_keeps_state ⟨0, [32, 116, 114, 117, 101, 0, 7]⟩
      (SentinelBuffer.Reachable.render (forms.v_bool true)
        (SentinelBuffer.fresh [1, 2, 3, 4, 5, 6, 7]) _ (SentinelBuffer.Reachable.fresh _)
        (by decide)) (by decide)⟩

/-- C20: for every 64-bit `n`, `naive_digits10(n)` returns (the loop, when it is entered,
with any fuel of at least 19 rounds), no product `p * 10` it computes exceeds
`SIZE_MAX`, the result is at least the number of decimal digits of `n`, with equality
for `n < SIZE_MAX / 10`, and so the digits of `n` fit a buffer of that size. -/
theorem naive_digits10_correct (n : Nat) (hn : n < 2 ^ 64) :
    ∃ d, naive_digits10 n = some d
      ∧ (n < SIZE_MAX / 10 → ∀ fuel, 19 ≤ fuel → naive_digits10_loop fuel n 1 10 = some d)
      ∧ (∀ q ∈ naive_digits10_products n, q ≤ SIZE_MAX)
      ∧ digitCount n ≤ d
      ∧ (n < SIZE_MAX / 10 → d = digitCount n)
      ∧ (decimal (n : Int)).length ≤ d := by
  by_cases h : n < SIZE_MAX / 10
  · refine ⟨digitCount n, naive_digits10_exact n h,
      fun _ fuel hfuel => naive_digits10_loop_exact n fuel h hfuel, ?_, le_refl _,
      fun _ => rfl, le_of_eq (decimal_natCast n)⟩
    intro q hq
    simp only [naive_digits10_products, if_neg (show ¬ n ≥ SIZE_MAX / 10 by omega)] at hq
    exact naive_digits10_loop_products_le 64 n 1 10 rfl h q hq
  · have h20 : digitCount n ≤ 20 := digitCount_le n 20 (by decide) (by omega)
    refine ⟨20, by unfold naive_digits10; rw [if_pos (by omega)]; rfl,
      fun h' => absurd h' h, ?_, h20, fun h' => absurd h' h, ?_⟩
    · intro q hq
      simp [naive_digits10_products, show n ≥ SIZE_MAX / 10 by omega] at hq
    · rw [decimal_natCast]; exact h20

theorem naive_digits10_correct_witness :
    (12345 : Nat) < 2 ^ 64
      ∧ ∃ d, naive_digits10 12345 = some d
        ∧ (12345 < SIZE_MAX / 10 →
            ∀ fuel, 19 ≤ fuel → naive_digits10_loop fuel 12345 1 10 = some d)
        ∧ (∀ q ∈ naive_digits10_products 12345, q ≤ SIZE_MAX)
        ∧ digitCount 12345 ≤ d
        ∧ (12345 < SIZE_MAX / 10 → d = digitCount 12345)
        ∧ (decimal ((12345 : Nat) : Int)).length ≤ d :=
  ⟨by decide, naive_digits10_correct 12345 (by decide)⟩

end matter
